import Mathlib

/-!
Verification development for the bookchat git-backed message store.

The Python sources are shallowly embedded: text is modelled as `Str := List Char`
(Python `str`), dictionaries as insertion-ordered association lists, the file
system and git working tree as explicit state records, and fallible external
calls (git subprocesses, file I/O) as explicit failure flags threaded through
the control flow exactly as the `try`/`except` blocks of the source dictate.
Whitespace and alphanumeric character classes are modelled over ASCII (the
repository only ever feeds ASCII usernames, headers and timestamps to them).
-/

/-- Python `str` is modelled as a list of characters. -/
abbrev Str := List Char

/-- The characters Python `str.strip()` removes, restricted to ASCII. -/
def pyIsSpace (c : Char) : Bool :=
  c = ' ' || c = '\t' || c = '\n' || c = '\r' || c = '\x0b' || c = '\x0c'

/-- Python `str.strip()`: drop whitespace from the left end. -/
def stripLeft (s : Str) : Str := s.dropWhile pyIsSpace

/-- Python `str.strip()`: drop whitespace from the right end. -/
def stripRight (s : Str) : Str := (s.reverse.dropWhile pyIsSpace).reverse

/-- Python `str.strip()` with no arguments. -/
def pyStrip (s : Str) : Str := stripRight (stripLeft s)

/-- Python `str.isalnum()`: non-empty and every character alphanumeric
(ASCII restriction of the Unicode class). -/
def pyIsAlnum (s : Str) : Bool :=
  decide (s ≠ []) && s.all Char.isAlphanum

/-- The username check of `UserBranchManager.ensure_user_branch`
(src/server/storage/user_branch_manager.py line 70).  The source raises unless
`username.isalnum() or all(c in '-_' for c in username if not c.isalnum())`;
this function returns `true` exactly when the username is accepted. -/
def ensure_user_branch_valid (u : Str) : Bool :=
  pyIsAlnum u || (u.filter (fun c => ¬ c.isAlphanum)).all (fun c => c = '-' || c = '_')

/-- The author check of `create_message` (src/src/message_utils.py line 38).
The source raises unless `author and author.replace('_', '').isalnum()`;
this function returns `true` exactly when the author is accepted. -/
def create_message_author_valid (u : Str) : Bool :=
  decide (u ≠ []) && pyIsAlnum (u.filter (fun c => c ≠ '_'))

/-- The content check of `create_message` (src/src/message_utils.py line 41):
rejects when `not content or not content.strip()`. -/
def create_message_content_valid (content : Str) : Bool :=
  decide (content ≠ []) && decide (pyStrip content ≠ [])

/-- Validation errors raised by `create_message`. -/
inductive ValidationError where
  | badAuthor
  | emptyContent
deriving DecidableEq, Repr

/-- Result record of `create_message` (src/src/message_utils.py lines 23-53).
The generated uuid id and wall-clock timestamp are taken as parameters: they
come from `uuid4()` and `datetime.utcnow()`, external sources of randomness
and time. -/
structure CreatedMessage where
  id : Str
  author : Str
  content : Str
  timestamp : Str
deriving DecidableEq, Repr

/-- `create_message` (src/src/message_utils.py lines 23-53): validates the
author, then the content, then builds the message dict with stripped content.
Raising `ValueError` is modelled as returning `Except.error`; no file or pool
I/O happens anywhere in the source function. -/
def create_message (author content freshId nowIso : Str) :
    Except ValidationError CreatedMessage :=
  if ¬ create_message_author_valid author then .error .badAuthor
  else if ¬ create_message_content_valid content then .error .emptyContent
  else .ok ⟨freshId, author, pyStrip content, nowIso⟩

lemma pyIsAlnum_iff (s : Str) :
    pyIsAlnum s = true ↔ s ≠ [] ∧ ∀ c ∈ s, c.isAlphanum := by
  simp [pyIsAlnum, List.all_eq_true]

lemma ensure_user_branch_valid_iff (u : Str) :
    ensure_user_branch_valid u = true ↔
      ∀ c ∈ u, c.isAlphanum ∨ c = '-' ∨ c = '_' := by
  constructor
  · intro h c hc
    rcases Bool.or_eq_true_iff.mp h with h1 | h1
    · exact Or.inl (((pyIsAlnum_iff u).mp h1).2 c hc)
    · by_cases ha : c.isAlphanum
      · exact Or.inl ha
      · have := List.all_eq_true.mp h1 c (List.mem_filter.mpr ⟨hc, by simp [ha]⟩)
        rcases Bool.or_eq_true_iff.mp this with h2 | h2
        · exact Or.inr (Or.inl (by simpa using h2))
        · exact Or.inr (Or.inr (by simpa using h2))
  · intro h
    apply Bool.or_eq_true_iff.mpr
    right
    apply List.all_eq_true.mpr
    intro c hc
    have hm := List.mem_filter.mp hc
    rcases h c hm.1 with h1 | h1 | h1
    · exact absurd h1 (by simpa using hm.2)
    · simp [h1]
    · simp [h1]

lemma create_message_author_valid_iff (u : Str) :
    create_message_author_valid u = true ↔
      (u.filter (fun c => c ≠ '_')) ≠ [] ∧ ∀ c ∈ u, c.isAlphanum ∨ c = '_' := by
  constructor
  · intro h
    rw [create_message_author_valid, Bool.and_eq_true] at h
    have h3 := (pyIsAlnum_iff _).mp h.2
    refine ⟨h3.1, fun c hc => ?_⟩
    by_cases hu : c = '_'
    · exact Or.inr hu
    · exact Or.inl (h3.2 c (List.mem_filter.mpr ⟨hc, by simpa using hu⟩))
  · intro ⟨h1, h2⟩
    rw [create_message_author_valid, Bool.and_eq_true]
    constructor
    · rcases List.exists_mem_of_ne_nil _ h1 with ⟨c, hc⟩
      have := (List.mem_filter.mp hc).1
      simp only [decide_eq_true_eq]
      exact fun he => by simp [he] at this
    · apply (pyIsAlnum_iff _).mpr
      refine ⟨h1, fun c hc => ?_⟩
      have hm := List.mem_filter.mp hc
      rcases h2 c hm.1 with h3 | h3
      · exact h3
      · exact absurd h3 (by simpa using hm.2)

/-- C7: the claim asserts both validators accept exactly the non-empty strings
over letters, digits, hyphen and underscore.  This closed statement refutes it
at two concrete inputs: `ensure_user_branch` accepts the empty username (its
`all(...)` guard is vacuously true on the empty string), and `create_message`
rejects the hyphenated author string composed of the letters a, hyphen, b
(its `replace('_','').isalnum()` check leaves the hyphen in place). -/
theorem usernameValidation_counterexample :
    ensure_user_branch_valid [] = true ∧
    create_message_author_valid ['a', '-', 'b'] = false := by
  constructor <;> decide

/-- C7 (amended): `ensure_user_branch` accepts a username iff every character
is alphanumeric, a hyphen or an underscore — with no non-emptiness requirement,
so the empty string is accepted; `create_message` accepts an author iff it
contains at least one non-underscore character and every character is
alphanumeric or an underscore — so hyphens are rejected. -/
theorem usernameValidation_characterization (u : Str) :
    (ensure_user_branch_valid u = true ↔
      ∀ c ∈ u, c.isAlphanum ∨ c = '-' ∨ c = '_') ∧
    (create_message_author_valid u = true ↔
      (u.filter (fun c => c ≠ '_')) ≠ [] ∧ ∀ c ∈ u, c.isAlphanum ∨ c = '_') :=
  ⟨ensure_user_branch_valid_iff u, create_message_author_valid_iff u⟩

/-- Python `text.split('\n')`: split a string at every newline.  The result is
always non-empty; a trailing newline yields a final empty line. -/
def splitNl : Str → List Str
  | [] => [[]]
  | c :: rest =>
    if c = '\n' then [] :: splitNl rest
    else
      match splitNl rest with
      | [] => [[c]]
      | l :: ls => (c :: l) :: ls

/-- Python `'\n'.join(lines)`. -/
def joinNl : List Str → Str
  | [] => []
  | [l] => l
  | l :: ls => l ++ '\n' :: joinNl ls

lemma splitNl_ne_nil (s : Str) : splitNl s ≠ [] := by
  cases s with
  | nil => simp [splitNl]
  | cons c rest =>
    simp only [splitNl]
    split
    · simp
    · split <;> simp

lemma splitNl_append_newline (a b : Str) (h : '\n' ∉ a) :
    splitNl (a ++ '\n' :: b) = a :: splitNl b := by
  induction a with
  | nil => simp [splitNl]
  | cons c rest ih =>
    have hc : c ≠ '\n' := fun hcc => h (by simp [hcc])
    have hr : '\n' ∉ rest := fun hm => h (by simp [hm])
    simp only [List.cons_append, splitNl, if_neg hc]
    rw [show rest.append ('\n' :: b) = rest ++ '\n' :: b from rfl, ih hr]

lemma splitNl_no_newline (a : Str) (h : '\n' ∉ a) : splitNl a = [a] := by
  induction a with
  | nil => rfl
  | cons c rest ih =>
    have hc : c ≠ '\n' := fun hcc => h (by simp [hcc])
    have hr : '\n' ∉ rest := fun hm => h (by simp [hm])
    simp only [splitNl, if_neg hc, ih hr]

lemma pyStrip_space_cons (s : Str) : pyStrip (' ' :: s) = pyStrip s := by
  simp [pyStrip, stripLeft, List.dropWhile, pyIsSpace]

/-- Header pattern `ID:` of `FileStorage._parse_message_content`
(src/server/storage/file_storage.py lines 38-44). -/
def idPre : Str := ['I', 'D', ':']

/-- Header pattern `Content:`. -/
def contentPre : Str := ['C', 'o', 'n', 't', 'e', 'n', 't', ':']

/-- Header pattern `Author:`. -/
def authorPre : Str := ['A', 'u', 't', 'h', 'o', 'r', ':']

/-- Header pattern `Timestamp:`. -/
def timestampPre : Str := ['T', 'i', 'm', 'e', 's', 't', 'a', 'm', 'p', ':']

/-- Extraction of one header field: the regex `(?:^|\n)H:\s*(.+?)(?:\n|$)` with
`re.search` finds the first line that starts with the header name and captures
the rest of that line, which the source then strips.  The `\s*` is modelled as
same-line whitespace skipping (it is exact for every file whose header lines
carry a non-blank value, in particular for all encoder outputs). -/
def headerVal (pre : Str) (lines : List Str) : Option Str :=
  (lines.find? (fun l => pre.isPrefixOf l)).map (fun l => pyStrip (l.drop pre.length))

/-- A line matched by any of the four header patterns; `re.sub` removes these
from the text when no explicit content header value is found
(src/server/storage/file_storage.py lines 53-61). -/
def isHeaderLine (l : Str) : Bool :=
  idPre.isPrefixOf l || contentPre.isPrefixOf l ||
  authorPre.isPrefixOf l || timestampPre.isPrefixOf l

/-- Result of `FileStorage._parse_message_content`: each field is `None` or a
string, as in the Python dict initialized at lines 31-36. -/
structure ParsedMessage where
  id : Option Str
  content : Option Str
  author : Option Str
  timestamp : Option Str
deriving DecidableEq, Repr

/-- The fallback content of `_parse_message_content` lines 52-61: remove all
header lines, keep the rest, strip. -/
def fallbackResidue (lines : List Str) : Str :=
  pyStrip (joinNl (lines.filter (fun l => ¬ isHeaderLine l)))

/-- `FileStorage._parse_message_content` (src/server/storage/file_storage.py
lines 22-63).  Headers are searched anywhere in the text (first match per
field, at a line start); if the content header is absent or its value is the
empty string, the text left over after deleting all header lines is used as
content when non-blank.  Note the Python guard is `if not message_data['content']`,
so a matched-but-empty content header falls through to the fallback and, when
the fallback is blank too, the field keeps the (non-None) empty string. -/
def parse_message_content (text : Str) : ParsedMessage :=
  let lines := splitNl text
  let cv := headerVal contentPre lines
  let content :=
    match cv with
    | some v =>
      if v = [] then (if fallbackResidue lines = [] then some [] else some (fallbackResidue lines))
      else some v
    | none => if fallbackResidue lines = [] then none else some (fallbackResidue lines)
  { id := headerVal idPre lines
    content := content
    author := headerVal authorPre lines
    timestamp := headerVal timestampPre lines }

/-- One header line of the encoder: the f-string writes the header name, a
colon (already part of the pattern constants), one space, the value. -/
def hline (pre v : Str) : Str := pre ++ ' ' :: v

/-- The header-first encoder of `FileStorage.save_message`
(src/server/storage/file_storage.py lines 111-117): four header lines, each
terminated by a newline.  The generated message id is taken as a parameter
(the source derives it from the timestamp plus a collision counter). -/
def encode_message (id content author timestamp : Str) : Str :=
  hline idPre id ++ '\n' ::
    (hline contentPre content ++ '\n' ::
      (hline authorPre author ++ '\n' ::
        (hline timestampPre timestamp ++ ['\n'])))

/-- A field value that occupies a single line and carries no incidental
whitespace: non-empty, newline-free, and equal to its own strip. -/
def SingleLineField (v : Str) : Prop := v ≠ [] ∧ '\n' ∉ v ∧ pyStrip v = v

lemma noNl_hline (pre v : Str) (hp : '\n' ∉ pre) (hv : '\n' ∉ v) :
    '\n' ∉ hline pre v := by
  intro h
  rcases List.mem_append.mp h with h1 | h1
  · exact hp h1
  · rcases List.mem_cons.mp h1 with h2 | h2
    · exact absurd h2.symm (by decide)
    · exact hv h2

lemma isPrefixOf_hline_self (pre v : Str) : pre.isPrefixOf (hline pre v) = true := by
  induction pre with
  | nil => rfl
  | cons c rest ih => simpa [hline, List.isPrefixOf] using ih

lemma drop_hline (pre v : Str) : (hline pre v).drop pre.length = ' ' :: v := by
  induction pre with
  | nil => rfl
  | cons c rest ih => simpa [hline, List.isPrefixOf] using ih

lemma not_prefixOf_head_ne (x y : Char) (xs ys : Str) (h : x ≠ y) :
    (x :: xs).isPrefixOf (y :: ys) = false := by
  simp [List.isPrefixOf, h]

lemma splitNl_encode (id c a t : Str)
    (hid : '\n' ∉ id) (hc : '\n' ∉ c) (ha : '\n' ∉ a) (ht : '\n' ∉ t) :
    splitNl (encode_message id c a t) =
      [hline idPre id, hline contentPre c, hline authorPre a, hline timestampPre t, []] := by
  have h1 : '\n' ∉ hline idPre id := noNl_hline _ _ (by decide) hid
  have h2 : '\n' ∉ hline contentPre c := noNl_hline _ _ (by decide) hc
  have h3 : '\n' ∉ hline authorPre a := noNl_hline _ _ (by decide) ha
  have h4 : '\n' ∉ hline timestampPre t := noNl_hline _ _ (by decide) ht
  rw [encode_message, splitNl_append_newline _ _ h1, splitNl_append_newline _ _ h2,
    splitNl_append_newline _ _ h3,
    show hline timestampPre t ++ ['\n'] = hline timestampPre t ++ '\n' :: [] from rfl,
    splitNl_append_newline _ _ h4]
  rfl

lemma headerVal_encode_lines (id c a t : Str) :
    headerVal idPre
        [hline idPre id, hline contentPre c, hline authorPre a, hline timestampPre t, []] =
      some (pyStrip id) ∧
    headerVal contentPre
        [hline idPre id, hline contentPre c, hline authorPre a, hline timestampPre t, []] =
      some (pyStrip c) ∧
    headerVal authorPre
        [hline idPre id, hline contentPre c, hline authorPre a, hline timestampPre t, []] =
      some (pyStrip a) ∧
    headerVal timestampPre
        [hline idPre id, hline contentPre c, hline authorPre a, hline timestampPre t, []] =
      some (pyStrip t) := by
  have hCI : contentPre.isPrefixOf (hline idPre id) = false := by
    simp [hline, idPre, contentPre, List.isPrefixOf]
  have hAI : authorPre.isPrefixOf (hline idPre id) = false := by
    simp [hline, idPre, authorPre, List.isPrefixOf]
  have hAC : authorPre.isPrefixOf (hline contentPre c) = false := by
    simp [hline, contentPre, authorPre, List.isPrefixOf]
  have hTI : timestampPre.isPrefixOf (hline idPre id) = false := by
    simp [hline, idPre, timestampPre, List.isPrefixOf]
  have hTC : timestampPre.isPrefixOf (hline contentPre c) = false := by
    simp [hline, contentPre, timestampPre, List.isPrefixOf]
  have hTA : timestampPre.isPrefixOf (hline authorPre a) = false := by
    simp [hline, authorPre, timestampPre, List.isPrefixOf]
  refine ⟨?_, ?_, ?_, ?_⟩ <;>
    simp [headerVal, List.find?, isPrefixOf_hline_self, hCI, hAI, hAC, hTI, hTC, hTA,
      drop_hline, pyStrip_space_cons]

/-- C2 (amended): the header-first encode/decode pair round-trips exactly on
messages whose id, author, timestamp and content are each a single non-empty
line equal to its own strip.  Multi-line content does not survive (see the
counterexample theorem). -/
theorem codec_roundtrip_singleLine (id c a t : Str)
    (hid : SingleLineField id) (hc : SingleLineField c)
    (ha : SingleLineField a) (ht : SingleLineField t) :
    parse_message_content (encode_message id c a t) =
      { id := some id, content := some c, author := some a, timestamp := some t } := by
  obtain ⟨hid1, hid2, hid3⟩ := hid
  obtain ⟨hc1, hc2, hc3⟩ := hc
  obtain ⟨ha1, ha2, ha3⟩ := ha
  obtain ⟨ht1, ht2, ht3⟩ := ht
  have hl := splitNl_encode id c a t hid2 hc2 ha2 ht2
  obtain ⟨e1, e2, e3, e4⟩ := headerVal_encode_lines id c a t
  rw [parse_message_content, hl]
  simp only [e1, e2, e3, e4, hid3, hc3, ha3, ht3]
  simp [hc1]

/-- C2: the claim as stated quantifies over all valid messages, including
content that spans multiple lines.  At the concrete message with id m1,
author al, timestamp t1 and the two-line content l1 newline l2, decoding the
encoding recovers only the first line of the content, so the round-trip fails:
the regex content capture stops at the first newline and the remainder of the
content is matched away as header residue. -/
theorem codec_roundtrip_counterexample :
    parse_message_content
        (encode_message ['m', '1'] ['l', '1', '\n', 'l', '2'] ['a', 'l'] ['t', '1']) ≠
      { id := some ['m', '1'], content := some ['l', '1', '\n', 'l', '2'],
        author := some ['a', 'l'], timestamp := some ['t', '1'] } ∧
    (parse_message_content
        (encode_message ['m', '1'] ['l', '1', '\n', 'l', '2'] ['a', 'l'] ['t', '1'])).content =
      some ['l', '1'] := by
  constructor <;> decide

/-- C2 witness: the amended round-trip at a concrete single-line message. -/
theorem codec_roundtrip_singleLine_witness :
    parse_message_content (encode_message ['m', '1'] ['h', 'i'] ['a', 'l'] ['t', '1']) =
      { id := some ['m', '1'], content := some ['h', 'i'],
        author := some ['a', 'l'], timestamp := some ['t', '1'] } :=
  codec_roundtrip_singleLine ['m', '1'] ['h', 'i'] ['a', 'l'] ['t', '1']
    (by refine ⟨by decide, by decide, by decide⟩)
    (by refine ⟨by decide, by decide, by decide⟩)
    (by refine ⟨by decide, by decide, by decide⟩)
    (by refine ⟨by decide, by decide, by decide⟩)

/-- The required-fields check of `FileStorage.get_messages`
(src/server/storage/file_storage.py line 77): a parsed file is kept iff its
id, content and author fields are all non-None. -/
def fileRequiredOk (p : ParsedMessage) : Bool :=
  p.id.isSome && p.content.isSome && p.author.isSome

/-- `FileStorage.get_messages` (src/server/storage/file_storage.py lines
65-86): parse every readable message file, in directory order, keeping only
the entries whose required fields were all determined.  The input is the list
of file contents in the sorted-filename order the source iterates in; a file
whose read raises is simply absent from that list. -/
def file_get_messages (files : List Str) : List ParsedMessage :=
  files.filterMap (fun text =>
    let p := parse_message_content text
    if fileRequiredOk p then some p else none)

/-- Message record of `GitManager.get_messages`: the dict fields assigned by
the line scan (src/server/storage/git_manager.py lines 578-587). -/
structure GitMsg where
  id : Option Str
  content : Option Str
  username : Option Str
  timestamp : Option Str
deriving DecidableEq, Repr

/-- Line prefix `ID: ` used by `GitManager.get_messages`. -/
def idHdr : Str := ['I', 'D', ':', ' ']

/-- Line prefix `Content: `. -/
def contentHdr : Str := ['C', 'o', 'n', 't', 'e', 'n', 't', ':', ' ']

/-- Line prefix `Username: `. -/
def usernameHdr : Str := ['U', 's', 'e', 'r', 'n', 'a', 'm', 'e', ':', ' ']

/-- Line prefix `Timestamp: `. -/
def timestampHdr : Str := ['T', 'i', 'm', 'e', 's', 't', 'a', 'm', 'p', ':', ' ']

/-- One step of the `for line in content.split('\n')` scan of
`GitManager.get_messages` (lines 579-587): each recognized header line
overwrites the field, so the last occurrence wins; the value is the raw rest
of the line, not stripped. -/
def git_parse_line (m : GitMsg) (l : Str) : GitMsg :=
  if idHdr.isPrefixOf l then { m with id := some (l.drop 4) }
  else if contentHdr.isPrefixOf l then { m with content := some (l.drop 9) }
  else if usernameHdr.isPrefixOf l then { m with username := some (l.drop 10) }
  else if timestampHdr.isPrefixOf l then { m with timestamp := some (l.drop 11) }
  else m

/-- The whole-file scan of `GitManager.get_messages`: every readable file
yields a message record, with no check that any field was found. -/
def git_parse (text : Str) : GitMsg :=
  (splitNl text).foldl git_parse_line ⟨none, none, none, none⟩

/-- Python string comparison: lexicographic on code points. -/
def strLe : Str → Str → Bool
  | [], _ => true
  | _ :: _, [] => false
  | a :: as, b :: bs => if a = b then strLe as bs else decide (a < b)

/-- The sort key of `messages.sort(key=lambda x: x.get('timestamp', ''))`
(src/server/storage/git_manager.py line 593). -/
def git_sort_key (m : GitMsg) : Str := m.timestamp.getD []

/-- `GitManager.get_messages` (src/server/storage/git_manager.py lines
566-599): parse every readable file, append its record unconditionally, then
sort stably by the timestamp field with empty-string default.  Python
`list.sort` is a stable merge sort, modelled by `List.mergeSort`. -/
def git_get_messages (files : List Str) : List GitMsg :=
  (files.map git_parse).mergeSort (fun a b => strLe (git_sort_key a) (git_sort_key b))

lemma strLe_total (x y : Str) : strLe x y = true ∨ strLe y x = true := by
  induction x generalizing y with
  | nil => left; rfl
  | cons a as ih =>
    cases y with
    | nil => right; rfl
    | cons b bs =>
      by_cases hab : a = b
      · subst hab
        rcases ih bs with h | h
        · left; simpa [strLe] using h
        · right; simpa [strLe] using h
      · rcases lt_trichotomy a b with h | h | h
        · left; simp [strLe, hab, h]
        · exact absurd h hab
        · right
          have hba : ¬ b = a := fun hba => hab hba.symm
          simp [strLe, hba, h]

lemma strLe_trans (x y z : Str) (h1 : strLe x y = true) (h2 : strLe y z = true) :
    strLe x z = true := by
  induction x generalizing y z with
  | nil => rfl
  | cons a as ih =>
    cases y with
    | nil => simp [strLe] at h1
    | cons b bs =>
      cases z with
      | nil => simp [strLe] at h2
      | cons c cs =>
        by_cases hab : a = b <;> by_cases hbc : b = c
        · subst hab; subst hbc
          simp only [strLe, if_pos rfl] at h1 h2 ⊢
          exact ih bs cs h1 h2
        · subst hab
          simp only [strLe, if_pos rfl, if_neg hbc] at h2
          simp only [strLe, if_neg hbc]
          exact h2
        · subst hbc
          simp only [strLe, if_neg hab] at h1
          simp only [strLe, if_neg hab]
          exact h1
        · simp only [strLe, if_neg hab] at h1
          simp only [strLe, if_neg hbc] at h2
          have hac : a < c := lt_trans (of_decide_eq_true h1) (of_decide_eq_true h2)
          have : a ≠ c := ne_of_lt hac
          simp [strLe, this, hac]

/-- The writer format of `GitManager.save_message`
(src/server/storage/git_manager.py lines 543-551): ID, Content, Username and
Timestamp lines, each newline-terminated. -/
def git_encode_message (id content username timestamp : Str) : Str :=
  idHdr ++ id ++ '\n' ::
    (contentHdr ++ content ++ '\n' ::
      (usernameHdr ++ username ++ '\n' ::
        (timestampHdr ++ timestamp ++ ['\n'])))

lemma file_get_messages_eq_map_filter (files : List Str) :
    file_get_messages files =
      (files.filter (fun t => fileRequiredOk (parse_message_content t))).map
        parse_message_content := by
  induction files with
  | nil => rfl
  | cons f fs ih =>
    simp only [file_get_messages] at ih ⊢
    by_cases h : fileRequiredOk (parse_message_content f) <;>
      simp [List.filterMap_cons, List.filter_cons, h, ih]

/-- C8 (amended): in `FileStorage.get_messages` a stored file that fails to
decode (no id, no author, or no content determined) is skipped and every
decodable file is still returned, in order — one corrupt file is never fatal
to the listing.  `GitManager.get_messages`, by contrast, only skips files
whose read raises: a readable file with no recognizable header lines is not
skipped (see the counterexample theorem). -/
theorem corruptFile_skipped_listing (xs ys : List Str) (bad : Str)
    (hbad : fileRequiredOk (parse_message_content bad) = false) :
    file_get_messages (xs ++ bad :: ys) = file_get_messages xs ++ file_get_messages ys ∧
    ∀ files, file_get_messages files =
      (files.filter (fun t => fileRequiredOk (parse_message_content t))).map
        parse_message_content := by
  refine ⟨?_, file_get_messages_eq_map_filter⟩
  simp only [file_get_messages, List.filterMap_append, List.filterMap_cons, hbad]
  simp [hbad]

/-- C8 witness: the listing drops a concrete corrupt file (one with an ID
header only) while returning the decodable files around it. -/
theorem corruptFile_skipped_listing_witness :
    fileRequiredOk (parse_message_content ['I', 'D', ':', ' ', 'x']) = false ∧
    file_get_messages
        [encode_message ['1'] ['h', 'i'] ['a', 'l'] ['t', '1'],
         ['I', 'D', ':', ' ', 'x'],
         encode_message ['2'] ['y', 'o'] ['b', 'o'] ['t', '2']] =
      file_get_messages [encode_message ['1'] ['h', 'i'] ['a', 'l'] ['t', '1']] ++
        file_get_messages [encode_message ['2'] ['y', 'o'] ['b', 'o'] ['t', '2']] :=
  ⟨by decide,
   (corruptFile_skipped_listing
      [encode_message ['1'] ['h', 'i'] ['a', 'l'] ['t', '1']]
      [encode_message ['2'] ['y', 'o'] ['b', 'o'] ['t', '2']]
      ['I', 'D', ':', ' ', 'x'] (by decide)).1⟩

/-- C8: the claim states that a file from which no id, author or content can
be determined is skipped when listing.  In `GitManager.get_messages` a
readable file with no recognizable headers is not skipped: it contributes a
record with every field None.  The same junk file is skipped by
`FileStorage.get_messages`. -/
theorem corruptFile_skipped_counterexample :
    git_get_messages [['j', 'u', 'n', 'k']] =
      [{ id := none, content := none, username := none, timestamp := none }] ∧
    file_get_messages [['j', 'u', 'n', 'k']] = [] := by
  constructor
  · have h : [['j', 'u', 'n', 'k']].map git_parse =
        [{ id := none, content := none, username := none, timestamp := none }] := by
      decide
    rw [git_get_messages, h]
    simp [List.mergeSort]
  · decide

/-- C6 (amended): `GitManager.get_messages` returns messages sorted by the
timestamp sort key ascending (string comparison, empty default), for every
list of stored files; in the end-to-end scenario, the two messages saved with
timestamps 1 and 2 come back in timestamp order even when the directory scan
lists the later file first.  `FileStorage.get_messages`, by contrast, returns
messages in directory order without any timestamp sort (see the
counterexample theorem). -/
theorem git_getMessages_sorted_by_timestamp :
    (∀ files, List.Pairwise
      (fun x y => strLe (git_sort_key x) (git_sort_key y) = true)
      (git_get_messages files)) ∧
    git_get_messages
        [git_encode_message ['2'] ['m', '2'] ['b', 'o'] ['2'],
         git_encode_message ['1'] ['m', '1'] ['a', 'l'] ['1']] =
      [{ id := some ['1'], content := some ['m', '1'],
         username := some ['a', 'l'], timestamp := some ['1'] },
       { id := some ['2'], content := some ['m', '2'],
         username := some ['b', 'o'], timestamp := some ['2'] }] := by
  constructor
  · intro files
    rw [git_get_messages]
    exact @List.sorted_mergeSort GitMsg
      (fun a b => strLe (git_sort_key a) (git_sort_key b))
      (fun a b c h1 h2 => strLe_trans _ _ _ h1 h2)
      (fun a b => by
        rcases strLe_total (git_sort_key a) (git_sort_key b) with h | h <;> simp [h])
      (files.map git_parse)
  · have h : [git_encode_message ['2'] ['m', '2'] ['b', 'o'] ['2'],
        git_encode_message ['1'] ['m', '1'] ['a', 'l'] ['1']].map git_parse =
        [{ id := some ['2'], content := some ['m', '2'],
           username := some ['b', 'o'], timestamp := some ['2'] },
         { id := some ['1'], content := some ['m', '1'],
           username := some ['a', 'l'], timestamp := some ['1'] }] := by
      decide
    rw [git_get_messages, h]
    simp [List.mergeSort, git_sort_key, strLe]

/-- C6: the claim asserts every listing is sorted by timestamp ascending, and
it also cites `FileStorage.get_messages`.  That listing preserves directory
order and performs no timestamp sort: with the file carrying timestamp 2
stored under the alphabetically earlier name, the listing returns timestamps
2 then 1, which is not ascending. -/
theorem fileStorage_getMessages_unsorted_counterexample :
    (file_get_messages
        [encode_message ['b'] ['m', '2'] ['b', 'o'] ['2'],
         encode_message ['a'] ['m', '1'] ['a', 'l'] ['1']]).map ParsedMessage.timestamp =
      [some ['2'], some ['1']] ∧
    strLe ['2'] ['1'] = false := by
  constructor <;> decide

/-- The message dict handed to `UserBranchManager.save_message`
(src/server/storage/user_branch_manager.py line 134): author, content,
timestamp. -/
structure MsgInput where
  author : Str
  content : Str
  timestamp : Str
deriving DecidableEq, Repr

/-- The state `UserBranchManager` acts on: the checked-out branch of the
working tree, the set of local branches, the per-user committed message files
(username, message id, message), and the flat pool directory
(pool filename, message). -/
structure RepoState where
  current : Str
  branches : List Str
  userFiles : List (Str × Str × MsgInput)
  pool : List (Str × MsgInput)
deriving DecidableEq, Repr

/-- Failure injection for the fallible external calls of
`ensure_user_branch` and `save_message`.  Each flag makes the corresponding
git subprocess or file write raise; `add_and_commit_file`, `push` and the
active-users update catch their own exceptions in the source and so cannot
raise into these functions. -/
structure Faults where
  listBranches : Bool
  checkoutMain : Bool
  createBranch : Bool
  writeReadme : Bool
  ensureCheckoutBack : Bool
  checkoutUser : Bool
  writeMessage : Bool
  checkoutRestore : Bool
  copyPool : Bool
deriving DecidableEq, Repr

/-- All external calls succeed. -/
def noFaults : Faults := ⟨false, false, false, false, false, false, false, false, false⟩

/-- The branch name `user/<username>`. -/
def userBranch (u : Str) : Str := ['u', 's', 'e', 'r', '/'] ++ u

/-- The default branch name. -/
def mainBranch : Str := ['m', 'a', 'i', 'n']

/-- `UserBranchManager.ensure_user_branch`
(src/server/storage/user_branch_manager.py lines 59-110).  The
`_get_current_branch` helper it calls on the git manager is declared nowhere
under src (only called, here and in the tests); modelled from the spec:
`currentBranch() -> name` returns the checked-out branch.  A failed checkout
leaves HEAD unchanged.  The `except` block only logs and returns False, so a
failure after the `checkout main` or `checkout -b` leaves the working tree on
whatever branch the last successful checkout selected. -/
def ensure_user_branch (f : Faults) (u : Str) (s : RepoState) : Bool × RepoState :=
  if ¬ ensure_user_branch_valid u then (false, s)
  else if f.listBranches then (false, s)
  else if userBranch u ∈ s.branches then
    if f.ensureCheckoutBack then (false, s) else (true, s)
  else if f.checkoutMain then (false, s)
  else
    let s1 := { s with current := mainBranch }
    if f.createBranch then (false, s1)
    else
      let s2 := { s1 with current := userBranch u, branches := userBranch u :: s1.branches }
      if f.writeReadme then (false, s2)
      else if f.ensureCheckoutBack then (false, s2)
      else (true, { s2 with current := s.current })

/-- The pool filename stem `<username>_<message id>`. -/
def poolName (u freshId : Str) : Str := u ++ '_' :: freshId

/-- `UserBranchManager.save_message`
(src/server/storage/user_branch_manager.py lines 134-184).  The generated
message id (epoch seconds plus a random hex token) is a parameter.  The source
performs no validation of the message content.  On any raise the `except`
block only logs and returns None: there is no `finally` restoring the
original branch. -/
def save_message (f : Faults) (msg : MsgInput) (freshId : Str) (s : RepoState) :
    Option Str × RepoState :=
  match ensure_user_branch f msg.author s with
  | (false, s1) => (none, s1)
  | (true, s1) =>
    let cb := s1.current
    if f.checkoutUser then (none, s1)
    else
      let s2 := { s1 with current := userBranch msg.author }
      if f.writeMessage then (none, s2)
      else
        let s3 := { s2 with userFiles := (msg.author, freshId, msg) :: s2.userFiles }
        if f.checkoutRestore then (none, s3)
        else
          let s4 := { s3 with current := cb }
          if f.copyPool then (none, s4)
          else
            (some freshId, { s4 with pool := (poolName msg.author freshId, msg) :: s4.pool })

lemma ensure_user_branch_success_current (f : Faults) (u : Str) (s : RepoState)
    (h : (ensure_user_branch f u s).1 = true) :
    (ensure_user_branch f u s).2.current = s.current := by
  unfold ensure_user_branch at h ⊢
  split_ifs at h ⊢ <;> simp_all

/-- C1 (amended): whenever `save_message` returns a message id, the
checked-out branch after the call equals the branch checked out before it.
On failure no restoration is attempted (see the counterexample theorem): the
repository can be left on the user branch or on main. -/
theorem saveMessage_branch_restored_on_success (f : Faults) (msg : MsgInput)
    (freshId : Str) (s : RepoState)
    (h : (save_message f msg freshId s).1.isSome) :
    (save_message f msg freshId s).2.current = s.current := by
  unfold save_message at h ⊢
  rcases he : ensure_user_branch f msg.author s with ⟨ok, s1⟩
  have hcur := ensure_user_branch_success_current f msg.author s
  rw [he] at h hcur
  cases ok with
  | false => simp at h
  | true =>
    simp only at h hcur ⊢
    split_ifs at h ⊢ <;> simp_all

/-- C1 witness: a fault-free save from a concrete working state returns an id
and leaves the branch where it started. -/
theorem saveMessage_branch_restored_witness :
    (save_message noFaults ⟨['a', 'l'], ['h', 'i'], ['t', '1']⟩ ['i', 'd']
        ⟨['w', 'k'], [mainBranch, ['w', 'k']], [], []⟩).1.isSome = true ∧
    (save_message noFaults ⟨['a', 'l'], ['h', 'i'], ['t', '1']⟩ ['i', 'd']
        ⟨['w', 'k'], [mainBranch, ['w', 'k']], [], []⟩).2.current = ['w', 'k'] :=
  ⟨by decide,
   saveMessage_branch_restored_on_success noFaults ⟨['a', 'l'], ['h', 'i'], ['t', '1']⟩
     ['i', 'd'] ⟨['w', 'k'], [mainBranch, ['w', 'k']], [], []⟩ (by decide)⟩

/-- C1: the claim requires the original branch back even when a step after
the switch to the user branch fails.  Concretely: starting on branch wk with
the user branch for al already existing, a failure while writing the message
file makes `save_message` return None with the repository left checked out on
user/al, not wk — the `except` handler performs no branch restoration. -/
theorem saveMessage_branch_restored_counterexample :
    (save_message ⟨false, false, false, false, false, false, true, false, false⟩
        ⟨['a', 'l'], ['h', 'i'], ['t', '1']⟩ ['i', 'd']
        ⟨['w', 'k'], [mainBranch, ['w', 'k'], userBranch ['a', 'l']], [], []⟩).1 = none ∧
    (save_message ⟨false, false, false, false, false, false, true, false, false⟩
        ⟨['a', 'l'], ['h', 'i'], ['t', '1']⟩ ['i', 'd']
        ⟨['w', 'k'], [mainBranch, ['w', 'k'], userBranch ['a', 'l']], [], []⟩).2.current =
      userBranch ['a', 'l'] ∧
    userBranch ['a', 'l'] ≠ ['w', 'k'] := by
  refine ⟨by decide, by decide, by decide⟩

/-- C3 (amended): `create_message` rejects every request whose content is
empty after trimming with a `ValueError` (the repository's validation error),
before any file, git or pool I/O — the function is pure and touches no state.
`UserBranchManager.save_message`, by contrast, performs no content validation
at all (see the counterexample theorem). -/
theorem emptyContent_rejected_by_create_message (author content freshId nowIso : Str)
    (h : pyStrip content = []) :
    ∃ e, create_message author content freshId nowIso = Except.error e := by
  unfold create_message
  by_cases h1 : create_message_author_valid author = true
  · have h2 : create_message_content_valid content = false := by
      simp [create_message_content_valid, h]
    exact ⟨.emptyContent, by simp [h1, h2]⟩
  · exact ⟨.badAuthor, by simp [h1]⟩

/-- C3 witness: the whitespace-only content is rejected by `create_message`. -/
theorem emptyContent_rejected_witness :
    ∃ e, create_message ['a', 'l'] [' ', ' '] ['i', 'd'] ['t', '1'] = Except.error e :=
  emptyContent_rejected_by_create_message ['a', 'l'] [' ', ' '] ['i', 'd'] ['t', '1']
    (by decide)

/-- C3: the claim asserts every save request with empty-after-trim content is
rejected before any I/O with the pool unchanged.  `UserBranchManager.save_message`
never validates content: a fault-free save of the message with author al and
empty content returns a fresh id and grows the pool by one entry. -/
theorem emptyContent_saved_counterexample :
    (save_message noFaults ⟨['a', 'l'], [], ['t', '1']⟩ ['i', 'd']
        ⟨mainBranch, [mainBranch], [], []⟩).1 = some ['i', 'd'] ∧
    (save_message noFaults ⟨['a', 'l'], [], ['t', '1']⟩ ['i', 'd']
        ⟨mainBranch, [mainBranch], [], []⟩).2.pool.length = 1 := by
  refine ⟨by decide, by decide⟩

/-- A row of the messages table, restricted to the columns the pin operations
touch (src/storage/sqlite_storage.py). -/
structure MsgRow where
  id : Str
  is_pinned : Bool
deriving DecidableEq, Repr

/-- A row of the pinned_messages table: message_id, pinned_by, and the
pinned_at timestamp the database fills in. -/
structure PinRow where
  message_id : Str
  pinned_by : Str
  pinned_at : Str
deriving DecidableEq, Repr

/-- Modelled from the spec: the pinned_messages table schema.  The file
database/schema.sql that creates it is not under src (only init_db.py, which
executes it, is).  Spec section 3 defines the pinned-message store as a
mapping from message_id to a pin record, so message_id is the table's key and
a plain INSERT of an existing key violates the key constraint
(sqlite3.IntegrityError, a subclass of sqlite3.Error). -/
structure PinDB where
  messages : List MsgRow
  pinned : List PinRow
deriving DecidableEq, Repr

/-- The existence check `SELECT id FROM messages WHERE id = ?`. -/
def msgExists (db : PinDB) (mid : Str) : Bool :=
  db.messages.any (fun r => r.id = mid)

/-- Whether a pin record for the id exists. -/
def isPinnedIn (db : PinDB) (mid : Str) : Bool :=
  db.pinned.any (fun r => r.message_id = mid)

/-- `SQLiteStorage.pin_message` (src/storage/sqlite_storage.py lines 35-61):
returns False when the message id is absent; otherwise INSERTs a pin record
and sets is_pinned on the message row.  When the id is already pinned the
INSERT raises IntegrityError, the `with conn` context rolls the transaction
back, and the except clause returns False — so the database is unchanged. -/
def pin_message (db : PinDB) (mid pinnedBy now : Str) : Bool × PinDB :=
  if ¬ msgExists db mid then (false, db)
  else if isPinnedIn db mid then (false, db)
  else
    (true,
     { messages := db.messages.map
         (fun r => if r.id = mid then { r with is_pinned := true } else r),
       pinned := db.pinned ++ [⟨mid, pinnedBy, now⟩] })

/-- `SQLiteStorage.unpin_message` (src/storage/sqlite_storage.py lines 63-79):
DELETEs any pin records for the id, clears is_pinned on the message row, and
returns True — also when nothing was pinned. -/
def unpin_message (db : PinDB) (mid : Str) : Bool × PinDB :=
  (true,
   { messages := db.messages.map
       (fun r => if r.id = mid then { r with is_pinned := false } else r),
     pinned := db.pinned.filter (fun r => ¬ r.message_id = mid) })

/-- C5 (amended): pinning an absent id fails and mutates nothing; pinning an
existing unpinned id succeeds and records the pin; pinning an already-pinned
id FAILS (returns False) with the database unchanged — the plain INSERT is
not an upsert, so pin_message is not idempotent; unpin_message always
succeeds, removes any pin for the id (a no-op on the pin table when the id
was not pinned), and unpin(unpin(pin(id))) leaves the id unpinned. -/
theorem pin_unpin_behaviour (db : PinDB) (mid pinnedBy now : Str) :
    (msgExists db mid = false → pin_message db mid pinnedBy now = (false, db)) ∧
    (msgExists db mid = true → isPinnedIn db mid = false →
      (pin_message db mid pinnedBy now).1 = true ∧
      isPinnedIn (pin_message db mid pinnedBy now).2 mid = true) ∧
    (msgExists db mid = true → isPinnedIn db mid = true →
      pin_message db mid pinnedBy now = (false, db)) ∧
    (unpin_message db mid).1 = true ∧
    isPinnedIn (unpin_message db mid).2 mid = false ∧
    (isPinnedIn db mid = false → (unpin_message db mid).2.pinned = db.pinned) ∧
    isPinnedIn
      (unpin_message (unpin_message (pin_message db mid pinnedBy now).2 mid).2 mid).2
      mid = false := by
  refine ⟨?_, ?_, ?_, rfl, ?_, ?_, ?_⟩
  · intro h
    simp [pin_message, h]
  · intro h1 h2
    have hp : pin_message db mid pinnedBy now =
        (true,
         { messages := db.messages.map
             (fun r => if r.id = mid then { r with is_pinned := true } else r),
           pinned := db.pinned ++ [⟨mid, pinnedBy, now⟩] }) := by
      simp [pin_message, h1, h2]
    rw [hp]
    refine ⟨rfl, ?_⟩
    apply List.any_eq_true.mpr
    exact ⟨⟨mid, pinnedBy, now⟩, by simp, by simp⟩
  · intro h1 h2
    simp [pin_message, h1, h2]
  · simp [unpin_message, isPinnedIn, List.any_eq_true, List.mem_filter]
  · intro h
    simp only [unpin_message]
    apply List.filter_eq_self.mpr
    intro r hr
    have : r.message_id ≠ mid := by
      intro he
      have : isPinnedIn db mid = true := by
        simp [isPinnedIn, List.any_eq_true]
        exact ⟨r, hr, by simp [he]⟩
      simp [this] at h
    simp [this]
  · simp [unpin_message, isPinnedIn, List.any_eq_true, List.mem_filter]

/-- C5 witness: the behaviour at a concrete database holding one unpinned
message: pinning succeeds, and re-pinning after a pin fails. -/
theorem pin_unpin_behaviour_witness :
    msgExists ⟨[⟨['m'], false⟩], []⟩ ['m'] = true ∧
    (pin_message ⟨[⟨['m'], false⟩], []⟩ ['m'] ['a', 'l'] ['t']).1 = true ∧
    isPinnedIn (pin_message ⟨[⟨['m'], false⟩], []⟩ ['m'] ['a', 'l'] ['t']).2 ['m'] = true :=
  ⟨by decide,
   ((pin_unpin_behaviour ⟨[⟨['m'], false⟩], []⟩ ['m'] ['a', 'l'] ['t']).2.1
      (by decide) (by decide)).1,
   ((pin_unpin_behaviour ⟨[⟨['m'], false⟩], []⟩ ['m'] ['a', 'l'] ['t']).2.1
      (by decide) (by decide)).2⟩

/-- C5: the claim asserts pinning an already-pinned message succeeds by
upserting.  Concretely, with message m already pinned, pin_message performs a
plain INSERT that violates the message_id key, the transaction rolls back and
the call returns False with the database unchanged — not a successful
idempotent upsert. -/
theorem pin_idempotent_counterexample :
    (pin_message ⟨[⟨['m'], true⟩], [⟨['m'], ['a', 'l'], ['t']⟩]⟩ ['m'] ['b', 'o'] ['u']).1 =
      false ∧
    (pin_message ⟨[⟨['m'], true⟩], [⟨['m'], ['a', 'l'], ['t']⟩]⟩ ['m'] ['b', 'o'] ['u']).2 =
      ⟨[⟨['m'], true⟩], [⟨['m'], ['a', 'l'], ['t']⟩]⟩ := by
  refine ⟨by decide, by decide⟩

/-- The metadata separator line of the content-first format: the five
characters newline, hyphen, hyphen, space, newline written by
`f.write('\n-- \n')` (src/storage/file_storage.py line 132). -/
def sepStr : Str := ['\n', '-', '-', ' ', '\n']

/-- Python `content.split('\n-- \n', 1)`: locate the first occurrence of the
separator; `none` when the text has no separator (Python returns the
one-element list). -/
def splitSep : Str → Option (Str × Str)
  | [] => none
  | c :: rest =>
    if sepStr.isPrefixOf (c :: rest) then some ([], (c :: rest).drop 5)
    else
      match splitSep rest with
      | some (a, b) => some (c :: a, b)
      | none => none

/-- The content part `parts[0]` of the content-first format. -/
def contentPart (text : Str) : Str :=
  match splitSep text with
  | some (a, _) => a
  | none => text

/-- Python `str.lower()`, ASCII. -/
def pyToLower (s : Str) : Str := s.map Char.toLower

/-- Python `line.split(':', 1)`: split at the first colon; `none` when the
line has no colon (the `if ':' in line` guard fails). -/
def splitColon : Str → Option (Str × Str)
  | [] => none
  | c :: rest =>
    if c = ':' then some ([], rest)
    else (splitColon rest).map (fun p => (c :: p.1, p.2))

/-- Python dict assignment `d[k] = v`: overwrite in place, else append. -/
def dictSet (k v : Str) : List (Str × Str) → List (Str × Str)
  | [] => [(k, v)]
  | (k0, v0) :: rest => if k0 = k then (k0, v) :: rest else (k0, v0) :: dictSet k v rest

/-- Python `d.get(k)`. -/
def dictGet (k : Str) (d : List (Str × Str)) : Option Str :=
  (d.find? (fun kv => kv.1 = k)).map (fun kv => kv.2)

/-- One line of the metadata block scan (src/storage/file_storage.py lines
207-211): lines with a colon contribute `key.strip().lower() -> value.strip()`,
later lines overwriting earlier ones. -/
def parseMetaLine (d : List (Str × Str)) (l : Str) : List (Str × Str) :=
  match splitColon l with
  | none => d
  | some (k, v) => dictSet (pyToLower (pyStrip k)) (pyStrip v) d

/-- The metadata dict parsed from `parts[1].strip().split('\n')`. -/
def parseMetaBlock (mp : Str) : List (Str × Str) :=
  (splitNl (pyStrip mp)).foldl parseMetaLine []

/-- The metadata dict of a whole file: empty when the file has no separator
(`len(parts) == 1`). -/
def fileMeta (text : Str) : List (Str × Str) :=
  match splitSep text with
  | some (_, b) => parseMetaBlock b
  | none => []

/-- Python `str.title()`, ASCII: an alphabetic character is uppercased when
the previous character was not alphabetic and lowercased otherwise. -/
def pyTitleGo : Bool → Str → Str
  | _, [] => []
  | prevAlpha, c :: rest =>
    (if c.isAlpha then (if prevAlpha then c.toLower else c.toUpper) else c) ::
      pyTitleGo c.isAlpha rest

/-- Python `str.title()`. -/
def pyTitle (s : Str) : Str := pyTitleGo false s

/-- The metadata block writer `f.write(f"{key.title()}: {value}\n")`
(src/storage/file_storage.py lines 229-230), in dict iteration order. -/
def writeMeta : List (Str × Str) → Str
  | [] => []
  | (k, v) :: rest => pyTitle k ++ ':' :: ' ' :: v ++ '\n' :: writeMeta rest

/-- The full text written by the content-first writers: stripped content, the
separator, then the metadata block. -/
def contentFirstText (content : Str) (meta : List (Str × Str)) : Str :=
  content ++ sepStr ++ writeMeta meta

/-- `FileStorage.update_message` (src/storage/file_storage.py lines 190-247):
re-read the file, split content from metadata, merge `updates` into the
metadata dict, and rewrite the file as stripped content, separator, metadata
block.  `updates` is modelled as the key/value list of the Python dict. -/
def update_message_text (text : Str) (updates : List (Str × Str)) : Str :=
  contentFirstText (pyStrip (contentPart text))
    (updates.foldl (fun d kv => dictSet kv.1 kv.2 d) (fileMeta text))

/-- The content of a stored message as every reader of this format sees it
(`parts[0].strip()`). -/
def fileContentView (text : Str) : Str := pyStrip (contentPart text)

/-- The author of a stored message: `metadata.get('author')`. -/
def fileAuthorView (text : Str) : Option Str :=
  dictGet ['a', 'u', 't', 'h', 'o', 'r'] (fileMeta text)


lemma splitSep_cons_none (c : Char) (rest : Str) (h : splitSep (c :: rest) = none) :
    sepStr.isPrefixOf (c :: rest) = false ∧ splitSep rest = none := by
  rw [splitSep] at h
  by_cases hp : sepStr.isPrefixOf (c :: rest)
  · simp [hp] at h
  · refine ⟨by simp [hp], ?_⟩
    rcases hr : splitSep rest with _ | p
    · rfl
    · simp [hp, hr] at h

lemma splitSep_cons_of_no_sep (c : Char) (rest : Str)
    (hp : sepStr.isPrefixOf (c :: rest) = false) :
    splitSep (c :: rest) =
      match splitSep rest with
      | some (a, b) => some (c :: a, b)
      | none => none := by
  rw [splitSep, if_neg (by simp [hp])]

lemma splitSep_some_decomp (s : Str) :
    ∀ a b, splitSep s = some (a, b) → s = a ++ (sepStr ++ b) ∧ splitSep a = none := by
  induction s with
  | nil => intro a b h; simp [splitSep] at h
  | cons c rest ih =>
    intro a b h
    by_cases hp : sepStr.isPrefixOf (c :: rest)
    · rw [splitSep, if_pos hp] at h
      obtain ⟨t, ht⟩ := List.isPrefixOf_iff_prefix.mp hp
      have hdrop : (c :: rest).drop 5 = t := by
        rw [← ht, show (5 : ℕ) = sepStr.length from rfl, List.drop_left]
      rw [hdrop] at h
      obtain ⟨ha, hb⟩ := Prod.mk.injEq .. ▸ Option.some.injEq .. ▸ h
      subst ha
      subst hb
      exact ⟨by simp [← ht], rfl⟩
    · rw [splitSep_cons_of_no_sep c rest (by simp [hp])] at h
      rcases hr : splitSep rest with _ | ⟨a2, b2⟩
      · rw [hr] at h
        exact absurd h (by simp)
      · rw [hr] at h
        simp only [Option.some.injEq] at h
        obtain ⟨ha, hb⟩ := Prod.mk.injEq .. ▸ h
        obtain ⟨hdec, hnone⟩ := ih a2 b2 hr
        subst hb
        subst ha
        refine ⟨by rw [List.cons_append, ← hdec], ?_⟩
        have hpre2 : sepStr.isPrefixOf (c :: a2) = false := by
          by_contra hcon
          have h1 : sepStr <+: (c :: a2) :=
            List.isPrefixOf_iff_prefix.mp (by simpa using hcon)
          have h2 : (c :: a2) <+: (c :: rest) := by
            rw [hdec]
            exact ⟨sepStr ++ b2, by simp⟩
          exact hp (List.isPrefixOf_iff_prefix.mpr (h1.trans h2))
        rw [splitSep_cons_of_no_sep c a2 hpre2, hnone]

lemma splitSep_append_sep (a b : Str) :
    splitSep a = none →
    (a = [] ∨ ∃ h : a ≠ [], pyIsSpace (a.getLast h) = false) →
    splitSep (a ++ (sepStr ++ b)) = some (a, b) := by
  induction a with
  | nil =>
    intro _ _
    rw [List.nil_append,
      show (sepStr ++ b : Str) = '\n' :: ('-' :: '-' :: ' ' :: '\n' :: b) from rfl,
      splitSep, if_pos (by simp [sepStr, List.isPrefixOf])]
    simp
  | cons c rest ih =>
    intro ha hlast
    obtain ⟨hpre, hrest⟩ := splitSep_cons_none c rest ha
    have hlast2 : rest = [] ∨ ∃ h : rest ≠ [], pyIsSpace (rest.getLast h) = false := by
      rcases hlast with h | ⟨h, hl⟩
      · exact absurd h (by simp)
      · rcases Decidable.em (rest = []) with hre | hre
        · exact Or.inl hre
        · exact Or.inr ⟨hre, by rwa [List.getLast_cons hre] at hl⟩
    have hp2 : sepStr.isPrefixOf (c :: (rest ++ (sepStr ++ b))) = false := by
      by_contra hcon
      have hpre5 : sepStr <+: c :: (rest ++ (sepStr ++ b)) :=
        List.isPrefixOf_iff_prefix.mp (by simpa using hcon)
      obtain ⟨t, ht⟩ := hpre5
      rcases rest with _ | ⟨r1, _ | ⟨r2, _ | ⟨r3, _ | ⟨r4, rest4⟩⟩⟩⟩
      · simp [sepStr] at ht
      · simp [sepStr] at ht
      · simp [sepStr] at ht
      · simp [sepStr] at ht
        rcases hlast with h | ⟨h, hl⟩
        · simp at h
        · rw [show ([c, r1, r2, r3] : Str).getLast h = r3 from rfl] at hl
          rw [← ht.2.2.2.1] at hl
          simp [pyIsSpace] at hl
      · simp [sepStr] at ht
        obtain ⟨h1, h2, h3, h4, h5, _⟩ := ht
        rw [show (c :: r1 :: r2 :: r3 :: r4 :: rest4 : Str) =
          [c, r1, r2, r3, r4] ++ rest4 from rfl] at hpre
        rw [← h1, ← h2, ← h3, ← h4, ← h5] at hpre
        simp [sepStr, List.isPrefixOf] at hpre
    rw [List.cons_append, splitSep_cons_of_no_sep _ _ hp2, ih hrest hlast2]

lemma splitSep_append_ne_none (x y : Str) : splitSep (x ++ (sepStr ++ y)) ≠ none := by
  induction x with
  | nil =>
    rw [List.nil_append,
      show (sepStr ++ y : Str) = '\n' :: ('-' :: '-' :: ' ' :: '\n' :: y) from rfl,
      splitSep, if_pos (by simp [sepStr, List.isPrefixOf])]
    simp
  | cons c rest ih =>
    rw [List.cons_append]
    by_cases hp : sepStr.isPrefixOf (c :: (rest ++ (sepStr ++ y)))
    · rw [splitSep, if_pos hp]
      simp
    · rw [splitSep_cons_of_no_sep _ _ (by simp [hp])]
      rcases hr : splitSep (rest ++ (sepStr ++ y)) with _ | p
      · exact absurd hr ih
      · simp

lemma splitSep_of_infixOf (a b : Str) (hi : a <:+: b) (hb : splitSep b = none) :
    splitSep a = none := by
  rcases ha : splitSep a with _ | ⟨x, y⟩
  · rfl
  · exfalso
    obtain ⟨hdec, _⟩ := splitSep_some_decomp a x y ha
    obtain ⟨u, v, huv⟩ := hi
    apply splitSep_append_ne_none (u ++ x) (y ++ v)
    rw [show (u ++ x) ++ (sepStr ++ (y ++ v)) = u ++ (x ++ (sepStr ++ y)) ++ v by
      simp [List.append_assoc]]
    rw [← hdec, huv, hb]

lemma splitSep_contentPart (text : Str) : splitSep (contentPart text) = none := by
  rcases h : splitSep text with _ | ⟨a, b⟩
  · rw [contentPart, h]
    exact h
  · rw [contentPart, h]
    exact (splitSep_some_decomp text a b h).2

lemma stripRight_eq_rdropWhile (s : Str) : stripRight s = List.rdropWhile pyIsSpace s := rfl

lemma pyStrip_infixOf (s : Str) : pyStrip s <:+: s := by
  have h1 : pyStrip s <+: stripLeft s := by
    rw [pyStrip, stripRight_eq_rdropWhile]
    exact List.rdropWhile_prefix pyIsSpace _
  have h2 : stripLeft s <:+ s := List.dropWhile_suffix pyIsSpace
  exact h1.isInfix.trans h2.isInfix

lemma pyStrip_last (s : Str) :
    pyStrip s = [] ∨ ∃ h : pyStrip s ≠ [], pyIsSpace ((pyStrip s).getLast h) = false := by
  rcases Decidable.em (pyStrip s = []) with he | he
  · exact Or.inl he
  · right
    refine ⟨he, ?_⟩
    have h2 : List.rdropWhile pyIsSpace (stripLeft s) ≠ [] := he
    have := List.rdropWhile_last_not pyIsSpace (stripLeft s) h2
    simpa using this

lemma pyStrip_idem (s : Str) : pyStrip (pyStrip s) = pyStrip s := by
  have hdrop : stripLeft (pyStrip s) = pyStrip s := by
    rcases he : pyStrip s with _ | ⟨c, rest⟩
    · rfl
    · have hpre : pyStrip s <+: stripLeft s := by
        rw [pyStrip, stripRight_eq_rdropWhile]
        exact List.rdropWhile_prefix pyIsSpace _
      rw [he] at hpre
      obtain ⟨t, ht⟩ := hpre
      have hh : (List.dropWhile pyIsSpace s).head? = some c := by
        show (stripLeft s).head? = some c
        rw [← ht]
        rfl
      have hc : pyIsSpace c = false := by
        have hd := List.head?_dropWhile_not pyIsSpace s
        rw [hh] at hd
        exact hd
      rw [stripLeft, List.dropWhile_cons, hc]
      simp
  rw [pyStrip, hdrop, stripRight_eq_rdropWhile, pyStrip, stripRight_eq_rdropWhile,
    List.rdropWhile_idempotent]

lemma contentPart_contentFirstText (content : Str) (meta : List (Str × Str))
    (hc1 : splitSep content = none)
    (hc2 : content = [] ∨ ∃ h : content ≠ [], pyIsSpace (content.getLast h) = false) :
    contentPart (contentFirstText content meta) = content := by
  have h := splitSep_append_sep content (writeMeta meta) hc1 hc2
  rw [contentFirstText, contentPart, List.append_assoc, h]

lemma dictGet_dictSet_ne (k k0 v : Str) (d : List (Str × Str)) (h : k0 ≠ k) :
    dictGet k (dictSet k0 v d) = dictGet k d := by
  induction d with
  | nil => simp [dictGet, dictSet, List.find?, h]
  | cons kv rest ih =>
    rcases kv with ⟨k1, v1⟩
    by_cases h1 : k1 = k0
    · subst h1
      simp only [dictSet, if_pos rfl]
      simp [dictGet, List.find?, h]
    · simp only [dictSet, if_neg h1]
      by_cases h2 : k1 = k
      · subst h2
        simp [dictGet, List.find?]
      · simp only [dictGet, List.find?] at ih ⊢
        simp [h2, ih]

lemma dictGet_foldl_updates (k : Str) (updates : List (Str × Str))
    (d : List (Str × Str)) (h : ∀ kv ∈ updates, kv.1 ≠ k) :
    dictGet k (updates.foldl (fun d kv => dictSet kv.1 kv.2 d) d) = dictGet k d := by
  induction updates generalizing d with
  | nil => rfl
  | cons u us ih =>
    rw [List.foldl_cons, ih _ (fun kv hkv => h kv (by simp [hkv]))]
    exact dictGet_dictSet_ne k u.1 u.2 d (h u (by simp))

/-- C9 (amended): `update_message` rewrites only the metadata block — the
content view of the file (the stripped text before the separator) is
identical before and after the update, for every update map.  The stored
author, however, lives in that metadata block: the author binding of the
rewritten metadata dict is unchanged exactly when no update key is the string
author; an update map containing the author key does rewrite the stored
author (see the counterexample theorem). -/
theorem updateMessage_metadata_frame (text : Str) (updates : List (Str × Str)) :
    fileContentView (update_message_text text updates) = fileContentView text ∧
    ((∀ kv ∈ updates, kv.1 ≠ ['a', 'u', 't', 'h', 'o', 'r']) →
      dictGet ['a', 'u', 't', 'h', 'o', 'r']
          (updates.foldl (fun d kv => dictSet kv.1 kv.2 d) (fileMeta text)) =
        dictGet ['a', 'u', 't', 'h', 'o', 'r'] (fileMeta text)) := by
  constructor
  · have hc1 : splitSep (pyStrip (contentPart text)) = none :=
      splitSep_of_infixOf _ _ (pyStrip_infixOf (contentPart text)) (splitSep_contentPart text)
    have hc2 := pyStrip_last (contentPart text)
    rw [update_message_text, fileContentView,
      contentPart_contentFirstText _ _ hc1 hc2, fileContentView, pyStrip_idem]
  · intro h
    exact dictGet_foldl_updates _ updates (fileMeta text) h

/-- C9 witness: a concrete update of the verified flag leaves the content view
and the author binding of a concrete stored message intact. -/
theorem updateMessage_metadata_frame_witness :
    fileContentView
        (update_message_text
          ['h', 'i', '\n', '-', '-', ' ', '\n', 'A', 'u', 't', 'h', 'o', 'r', ':', ' ',
           'a', 'l', '\n']
          [(['v', 'e', 'r', 'i', 'f', 'i', 'e', 'd'], ['t', 'r', 'u', 'e'])]) =
      fileContentView
        ['h', 'i', '\n', '-', '-', ' ', '\n', 'A', 'u', 't', 'h', 'o', 'r', ':', ' ',
         'a', 'l', '\n'] ∧
    dictGet ['a', 'u', 't', 'h', 'o', 'r']
        ([(['v', 'e', 'r', 'i', 'f', 'i', 'e', 'd'], ['t', 'r', 'u', 'e'])].foldl
          (fun d kv => dictSet kv.1 kv.2 d)
          (fileMeta
            ['h', 'i', '\n', '-', '-', ' ', '\n', 'A', 'u', 't', 'h', 'o', 'r', ':', ' ',
             'a', 'l', '\n'])) =
      dictGet ['a', 'u', 't', 'h', 'o', 'r']
        (fileMeta
          ['h', 'i', '\n', '-', '-', ' ', '\n', 'A', 'u', 't', 'h', 'o', 'r', ':', ' ',
           'a', 'l', '\n']) :=
  ⟨(updateMessage_metadata_frame
      ['h', 'i', '\n', '-', '-', ' ', '\n', 'A', 'u', 't', 'h', 'o', 'r', ':', ' ',
       'a', 'l', '\n']
      [(['v', 'e', 'r', 'i', 'f', 'i', 'e', 'd'], ['t', 'r', 'u', 'e'])]).1,
   (updateMessage_metadata_frame
      ['h', 'i', '\n', '-', '-', ' ', '\n', 'A', 'u', 't', 'h', 'o', 'r', ':', ' ',
       'a', 'l', '\n']
      [(['v', 'e', 'r', 'i', 'f', 'i', 'e', 'd'], ['t', 'r', 'u', 'e'])]).2 (by decide)⟩

/-- C9: the claim says the stored author is never rewritten by an update.
Updating the concrete stored message whose author is al with the update map
mapping author to mal rewrites the Author line: the rewritten file's parsed
author is mal.  The content view stays intact, confirming only the metadata
block was rewritten. -/
theorem updateMessage_author_rewritten_counterexample :
    fileAuthorView
        (update_message_text
          ['h', 'i', '\n', '-', '-', ' ', '\n', 'A', 'u', 't', 'h', 'o', 'r', ':', ' ',
           'a', 'l', '\n']
          [(['a', 'u', 't', 'h', 'o', 'r'], ['m', 'a', 'l'])]) =
      some ['m', 'a', 'l'] ∧
    fileAuthorView
        ['h', 'i', '\n', '-', '-', ' ', '\n', 'A', 'u', 't', 'h', 'o', 'r', ':', ' ',
         'a', 'l', '\n'] =
      some ['a', 'l'] := by
  refine ⟨by decide, by decide⟩

/-- A path in the messages directory of the content-first `FileStorage`: the
final txt file or the temporary tmp file of a message id
(src/storage/file_storage.py lines 122-125). -/
inductive FsPath where
  | txt : Str → FsPath
  | tmp : Str → FsPath
deriving DecidableEq, Repr

/-- The messages directory: an association of paths to file contents. -/
abbrev Dir := List (FsPath × Str)

/-- Read a file. -/
def dirGet (d : Dir) (p : FsPath) : Option Str :=
  (d.find? (fun e => e.1 = p)).map (fun e => e.2)

/-- Create or overwrite a file. -/
def dirSet (p : FsPath) (v : Str) : Dir → Dir
  | [] => [(p, v)]
  | e :: rest => if e.1 = p then (p, v) :: rest else e :: dirSet p v rest

/-- `os.unlink`: remove a file if present. -/
def dirErase (p : FsPath) : Dir → Dir
  | [] => []
  | e :: rest => if e.1 = p then dirErase p rest else e :: dirErase p rest

/-- The metadata dict written by `FileStorage.save_message`
(src/storage/file_storage.py lines 114-119): the caller metadata updated with
author, timestamp, and verified defaulting to false. -/
def save_message_meta (author timestamp : Str) (metadata : List (Str × Str)) :
    List (Str × Str) :=
  dictSet ['v', 'e', 'r', 'i', 'f', 'i', 'e', 'd']
    ((dictGet ['v', 'e', 'r', 'i', 'f', 'i', 'e', 'd'] metadata).getD
      ['f', 'a', 'l', 's', 'e'])
    (dictSet ['t', 'i', 'm', 'e', 's', 't', 'a', 'm', 'p'] timestamp
      (dictSet ['a', 'u', 't', 'h', 'o', 'r'] author metadata))

/-- The sequence of directory states `FileStorage.save_message`
(src/storage/file_storage.py lines 103-153) passes through: the state before
the open, the temporary file holding each partial prefix of the text (the
write goes through a buffered file object flushed and fsynced before the
rename), and the final state where `os.rename` has moved the complete text to
the txt path and the tmp path is gone.  The rename happens only after the
whole text is flushed. -/
def save_message_states (d : Dir) (id text : Str) : List Dir :=
  d :: (List.range (text.length + 1)).map (fun j => dirSet (.tmp id) (text.take j) d) ++
    [dirSet (.txt id) text (dirErase (.tmp id) d)]

/-- The directory after the error cleanup (src/storage/file_storage.py lines
146-149): any failure inside the write block unlinks the temporary file; the
rename is the last operation, so every failure point leaves the directory
with the tmp path removed and the txt path never touched. -/
def save_message_failed (d : Dir) (id : Str) : Dir := dirErase (.tmp id) d

lemma dirGet_dirSet_ne (p q : FsPath) (v : Str) (d : Dir) (h : p ≠ q) :
    dirGet (dirSet p v d) q = dirGet d q := by
  induction d with
  | nil => simp [dirGet, dirSet, List.find?, h]
  | cons e rest ih =>
    by_cases h1 : e.1 = p
    · simp only [dirSet, if_pos h1]
      simp only [dirGet, List.find?] at ih ⊢
      simp [h, h1, ih]
    · simp only [dirSet, if_neg h1]
      by_cases h2 : e.1 = q
      · simp [dirGet, List.find?, h2]
      · simp only [dirGet, List.find?] at ih ⊢
        simp [h2, ih]

lemma dirGet_dirSet_eq (p : FsPath) (v : Str) (d : Dir) :
    dirGet (dirSet p v d) p = some v := by
  induction d with
  | nil => simp [dirGet, dirSet, List.find?]
  | cons e rest ih =>
    by_cases h1 : e.1 = p
    · simp [dirGet, dirSet, List.find?, h1]
    · simp only [dirSet, if_neg h1]
      simp only [dirGet, List.find?] at ih ⊢
      simp [h1, ih]

lemma dirGet_dirErase_ne (p q : FsPath) (d : Dir) (h : p ≠ q) :
    dirGet (dirErase p d) q = dirGet d q := by
  induction d with
  | nil => rfl
  | cons e rest ih =>
    by_cases h1 : e.1 = p
    · have h2 : e.1 ≠ q := by rw [h1]; exact h
      simp only [dirErase, if_pos h1]
      rw [ih]
      simp [dirGet, List.find?, h2]
    · simp only [dirErase, if_neg h1]
      by_cases h2 : e.1 = q
      · simp [dirGet, List.find?, h2]
      · simp only [dirGet, List.find?] at ih ⊢
        simp [h2, ih]

lemma dirGet_dirErase_eq (p : FsPath) (d : Dir) : dirGet (dirErase p d) p = none := by
  induction d with
  | nil => rfl
  | cons e rest ih =>
    by_cases h1 : e.1 = p
    · simpa [dirErase, if_pos h1] using ih
    · simp only [dirErase, if_neg h1]
      simp only [dirGet, List.find?] at ih ⊢
      simp [h1, ih]

/-- C10: the final path of a save is only ever observed complete, and errors
leave the visible store unchanged.  For a fresh message id: (1) in every
state the save passes through, the txt path is either absent or holds the
complete text — partial writes go only to the tmp path; (2) after a
successful save the txt path holds the complete text and the tmp path is
gone; (3) after a failure at any point, the cleanup leaves no file at the txt
path, no temporary file, and every txt path in the directory reads exactly as
before the call. -/
theorem save_message_atomic (d : Dir) (id text : Str)
    (hfresh : dirGet d (.txt id) = none) :
    (∀ s ∈ save_message_states d id text,
      dirGet s (.txt id) = none ∨ dirGet s (.txt id) = some text) ∧
    (dirGet (dirSet (.txt id) text (dirErase (.tmp id) d)) (.txt id) = some text ∧
     dirGet (dirSet (.txt id) text (dirErase (.tmp id) d)) (.tmp id) = none) ∧
    (dirGet (save_message_failed d id) (.txt id) = none ∧
     dirGet (save_message_failed d id) (.tmp id) = none ∧
     ∀ other : Str, dirGet (save_message_failed d id) (.txt other) = dirGet d (.txt other)) := by
  refine ⟨?_, ⟨dirGet_dirSet_eq _ _ _, ?_⟩, ?_, ?_, ?_⟩
  · intro s hs
    rw [save_message_states] at hs
    rcases List.mem_cons.mp hs with h | h
    · subst h
      exact Or.inl hfresh
    · rcases List.mem_append.mp h with h | h
      · obtain ⟨j, _, hj⟩ := List.mem_map.mp h
        subst hj
        left
        rw [dirGet_dirSet_ne _ _ _ _ (by simp), hfresh]
      · rw [List.mem_singleton.mp h]
        exact Or.inr (dirGet_dirSet_eq _ _ _)
  · rw [dirGet_dirSet_ne _ _ _ _ (by simp)]
    exact dirGet_dirErase_eq _ _
  · rw [save_message_failed, dirGet_dirErase_ne _ _ _ (by simp)]
    exact hfresh
  · exact dirGet_dirErase_eq _ _
  · intro other
    exact dirGet_dirErase_ne _ _ _ (by simp)

/-- C10 witness: the atomic-save properties at a concrete one-file directory
and a concrete message text: the successful save leaves the complete text at
the txt path with the tmp gone, and the failure cleanup leaves no txt file for
the new id. -/
theorem save_message_atomic_witness :
    dirGet (dirSet (.txt ['b']) ['h', 'i']
        (dirErase (.tmp ['b']) [(FsPath.txt ['a'], ['o', 'l', 'd'])]))
      (.txt ['b']) = some ['h', 'i'] ∧
    dirGet (dirSet (.txt ['b']) ['h', 'i']
        (dirErase (.tmp ['b']) [(FsPath.txt ['a'], ['o', 'l', 'd'])]))
      (.tmp ['b']) = none ∧
    dirGet (save_message_failed [(FsPath.txt ['a'], ['o', 'l', 'd'])] ['b'])
      (.txt ['b']) = none :=
  ⟨(save_message_atomic [(FsPath.txt ['a'], ['o', 'l', 'd'])] ['b'] ['h', 'i']
      (by decide)).2.1.1,
   (save_message_atomic [(FsPath.txt ['a'], ['o', 'l', 'd'])] ['b'] ['h', 'i']
      (by decide)).2.1.2,
   (save_message_atomic [(FsPath.txt ['a'], ['o', 'l', 'd'])] ['b'] ['h', 'i']
      (by decide)).2.2.1⟩

/-- The hash key of a fork message: SHA-256 collisions are assumed absent, so
the hash of the sorted-key JSON of content, user and timestamp is modelled as
the triple itself (that serialization is injective on the three fields). -/
abbrev HKey := Str × Str × Str

/-- A fork message as the merge reads it from a peer json file: the fields
`generate_message_hash` uses, plus the source_repo tag the merge adds
(src/sync_forks.py line 218). -/
structure ForkMsg where
  content : Str
  user : Str
  timestamp : Str
  source_repo : Option Str
deriving DecidableEq, Repr

/-- `generate_message_hash` (src/sync_forks.py lines 91-103): deterministic in
content, user and timestamp only — source_repo and everything else excluded. -/
def generate_message_hash (m : ForkMsg) : HKey :=
  (m.content, m.user, m.timestamp)

/-- A pool filename.  `generate_message_filename` derives the canonical name
date_hashprefix.json from content, user and timestamp only; truncated-hash
collisions are assumed absent like full-hash collisions, so distinct hash
keys get distinct canonical names and the name space is modelled by
constructors: a name the initial pool came with, the canonical name of a hash
key, or the collision-suffixed variant base_i produced by the numeric
suffixing loops (src/sync_forks.py lines 164-169 and 224-230). -/
inductive FName where
  | orig : Str → FName
  | canon : HKey → FName
  | suffixed : HKey → Nat → FName
deriving DecidableEq, Repr

/-- The local messages pool: an association of filenames to messages. -/
abbrev Pool := List (FName × ForkMsg)

/-- Read the file at a name. -/
def poolGet (pool : Pool) (n : FName) : Option ForkMsg :=
  (pool.find? (fun e => e.1 = n)).map (fun e => e.2)

/-- `path.exists()`. -/
def poolHas (pool : Pool) (n : FName) : Bool := (poolGet pool n).isSome

/-- Remove the file at a name. -/
def poolErase (n : FName) : Pool → Pool
  | [] => []
  | e :: rest => if e.1 = n then poolErase n rest else e :: poolErase n rest

/-- The distinct filenames of the pool. -/
def poolNames (pool : Pool) : List FName := pool.map (fun e => e.1)

/-- The hash keys of the pool's entries, with multiplicity. -/
def poolKeys (pool : Pool) : List HKey :=
  pool.map (fun e => generate_message_hash e.2)

/-- Number of pool entries carrying a given hash key. -/
def countKey (k : HKey) (pool : Pool) : Nat :=
  pool.countP (fun e => generate_message_hash e.2 = k)

/-- The collision-suffix search `while target_path.exists(): base_i; i += 1`
starting at i, with enough fuel to pass every occupied index. -/
def firstFreeSuffixAux (pool : Pool) (k : HKey) : Nat → Nat → Nat
  | i, 0 => i
  | i, fuel + 1 =>
    if poolHas pool (.suffixed k i) then firstFreeSuffixAux pool k (i + 1) fuel else i

/-- The first free collision-suffix index, searched from 1 as both suffixing
loops of the source do. -/
def firstFreeSuffix (pool : Pool) (k : HKey) : Nat :=
  firstFreeSuffixAux pool k 1 (pool.length + 1)


lemma poolErase_eq_self (n : FName) (pool : Pool) (h : ∀ e ∈ pool, e.1 ≠ n) :
    poolErase n pool = pool := by
  induction pool with
  | nil => rfl
  | cons f rest ih =>
    rw [poolErase, if_neg (h f (by simp)), ih (fun e he => h e (by simp [he]))]

lemma poolGet_eq_some_of_mem (pool : Pool) (n : FName) (m : ForkMsg)
    (hnd : (poolNames pool).Nodup) (hm : (n, m) ∈ pool) : poolGet pool n = some m := by
  induction pool with
  | nil => simp at hm
  | cons e rest ih =>
    rw [poolNames, List.map_cons] at hnd
    obtain ⟨hh, ht⟩ := List.nodup_cons.mp hnd
    rcases List.mem_cons.mp hm with h | h
    · subst h
      simp [poolGet, List.find?]
    · have hne : e.1 ≠ n := by
        intro he
        apply hh
        rw [he]
        exact List.mem_map.mpr ⟨(n, m), h, rfl⟩
      simp only [poolGet, List.find?] at ih ⊢
      simp only [hne, decide_False]
      exact ih ht h

lemma mem_of_poolGet_eq_some (pool : Pool) (n : FName) (m : ForkMsg)
    (h : poolGet pool n = some m) : (n, m) ∈ pool := by
  induction pool with
  | nil => simp [poolGet] at h
  | cons e rest ih =>
    rcases e with ⟨n0, m0⟩
    by_cases he : n0 = n
    · subst he
      simp [poolGet, List.find?] at h
      simp [h]
    · simp only [poolGet, List.find?] at h ih
      simp only [show ((n0, m0).1 = n) = False by simp [he], decide_False] at h
      exact List.mem_cons.mpr (Or.inr (ih (by simpa using h)))

lemma mem_poolErase (n : FName) (pool : Pool) (e : FName × ForkMsg) :
    e ∈ poolErase n pool ↔ e ∈ pool ∧ e.1 ≠ n := by
  induction pool with
  | nil => simp [poolErase]
  | cons f rest ih =>
    by_cases hf : f.1 = n
    · simp only [poolErase, if_pos hf, ih]
      constructor
      · exact fun ⟨h1, h2⟩ => ⟨List.mem_cons.mpr (Or.inr h1), h2⟩
      · rintro ⟨h1, h2⟩
        rcases List.mem_cons.mp h1 with h | h
        · exact absurd (h ▸ hf) h2
        · exact ⟨h, h2⟩
    · simp only [poolErase, if_neg hf]
      constructor
      · intro h
        rcases List.mem_cons.mp h with h | h
        · exact ⟨List.mem_cons.mpr (Or.inl h), h ▸ hf⟩
        · exact ⟨List.mem_cons.mpr (Or.inr (ih.mp h).1), (ih.mp h).2⟩
      · rintro ⟨h1, h2⟩
        rcases List.mem_cons.mp h1 with h | h
        · exact List.mem_cons.mpr (Or.inl h)
        · exact List.mem_cons.mpr (Or.inr (ih.mpr ⟨h, h2⟩))

lemma perm_cons_poolErase (pool : Pool) (n : FName) (m : ForkMsg)
    (hnd : (poolNames pool).Nodup) (hm : (n, m) ∈ pool) :
    pool.Perm ((n, m) :: poolErase n pool) := by
  induction pool with
  | nil => simp at hm
  | cons e rest ih =>
    rw [poolNames, List.map_cons] at hnd
    obtain ⟨hh, ht⟩ := List.nodup_cons.mp hnd
    rcases List.mem_cons.mp hm with h | h
    · subst h
      have h2 : poolErase n ((n, m) :: rest) = rest := by
        rw [poolErase, if_pos rfl]
        apply poolErase_eq_self
        intro e he hne
        apply hh
        rw [← hne]
        exact List.mem_map.mpr ⟨e, he, rfl⟩
      rw [h2]
    · have hne : e.1 ≠ n := by
        intro he
        apply hh
        rw [he]
        exact List.mem_map.mpr ⟨(n, m), h, rfl⟩
      rw [poolErase, if_neg hne]
      exact ((ih ht h).cons e).trans (List.Perm.swap _ _ _)

/-- The collision-suffix index carried by a filename, when it is a suffixed
variant for the given key. -/
def nameSuffixIdx (k : HKey) : FName → Option Nat
  | .suffixed k2 i => if k2 = k then some i else none
  | _ => none

/-- The occupied collision-suffix indices of a key. -/
def occIdxs (pool : Pool) (k : HKey) : List Nat :=
  (poolNames pool).filterMap (nameSuffixIdx k)

lemma poolHas_iff (pool : Pool) (n : FName) :
    poolHas pool n = true ↔ n ∈ poolNames pool := by
  have hiso : (poolGet pool n).isSome =
      (List.find? (fun e => decide (e.1 = n)) pool).isSome := by
    rw [poolGet]
    cases List.find? (fun e => decide (e.1 = n)) pool <;> rfl
  rw [poolHas, hiso, List.find?_isSome]
  constructor
  · rintro ⟨e, he, hp⟩
    exact List.mem_map.mpr ⟨e, he, by simpa using hp⟩
  · intro h
    obtain ⟨e, he, hp⟩ := List.mem_map.mp h
    exact ⟨e, he, by simpa using hp⟩

lemma nameSuffixIdx_eq_some (k : HKey) (nm : FName) (i : Nat) :
    nameSuffixIdx k nm = some i ↔ nm = .suffixed k i := by
  cases nm with
  | orig s => simp [nameSuffixIdx]
  | canon k2 => simp [nameSuffixIdx]
  | suffixed k2 j =>
    by_cases hk : k2 = k
    · subst hk
      constructor
      · intro h
        simp only [nameSuffixIdx, if_true, Option.some.injEq] at h
        rw [h]
      · intro h
        injection h with h1 h2
        simp [nameSuffixIdx, h2]
    · constructor
      · intro h
        simp [nameSuffixIdx, hk] at h
      · intro h
        injection h with h1 h2
        exact absurd h1 hk

lemma mem_occIdxs (pool : Pool) (k : HKey) (i : Nat) :
    i ∈ occIdxs pool k ↔ FName.suffixed k i ∈ poolNames pool := by
  rw [occIdxs, List.mem_filterMap]
  constructor
  · rintro ⟨nm, hnm, hi⟩
    rw [(nameSuffixIdx_eq_some k nm i).mp hi] at hnm
    exact hnm
  · intro h
    exact ⟨_, h, (nameSuffixIdx_eq_some k _ i).mpr rfl⟩

lemma occIdxs_nodup (pool : Pool) (k : HKey) (hnd : (poolNames pool).Nodup) :
    (occIdxs pool k).Nodup := by
  apply List.Nodup.filterMap _ hnd
  intro a b i ha hb
  rw [Option.mem_def, nameSuffixIdx_eq_some] at ha hb
  rw [ha, hb]

lemma filter_sublist_of_imp (l : List Nat) (p q : Nat → Bool) (h : ∀ x, p x = true → q x = true) :
    (l.filter p).Sublist (l.filter q) := by
  induction l with
  | nil => simp
  | cons a rest ih =>
    by_cases hp : p a
    · rw [List.filter_cons_of_pos hp, List.filter_cons_of_pos (h a hp)]
      exact ih.cons₂ a
    · rw [List.filter_cons_of_neg (by simpa using hp)]
      by_cases hq : q a
      · rw [List.filter_cons_of_pos hq]
        exact ih.cons a
      · rw [List.filter_cons_of_neg (by simpa using hq)]
        exact ih

lemma filter_ge_succ_lt (occ : List Nat) (i : Nat) (hnd : occ.Nodup) (hi : i ∈ occ) :
    (occ.filter (fun j => decide (i + 1 ≤ j))).length <
      (occ.filter (fun j => decide (i ≤ j))).length := by
  induction occ with
  | nil => simp at hi
  | cons a rest ih =>
    obtain ⟨hh, ht⟩ := List.nodup_cons.mp hnd
    rcases List.mem_cons.mp hi with h | h
    · subst h
      rw [List.filter_cons, List.filter_cons, if_neg (by simp), if_pos (by simp)]
      simp only [List.length_cons]
      have hs : ((rest.filter (fun j => decide (i + 1 ≤ j))).length ≤
          (rest.filter (fun j => decide (i ≤ j))).length) :=
        (filter_sublist_of_imp rest _ _ (fun x hx => by
          simp only [decide_eq_true_eq] at hx ⊢
          omega)).length_le
      omega
    · have hne : a ≠ i := fun hc => hh (hc ▸ h)
      have heq : (decide (i + 1 ≤ a)) = (decide (i ≤ a)) := by
        by_cases hle : i ≤ a
        · have h2 : i + 1 ≤ a := by omega
          simp [hle, h2]
        · have h2 : ¬ i + 1 ≤ a := by omega
          simp [hle, h2]
      rw [List.filter_cons, List.filter_cons, heq]
      by_cases hka : decide (i ≤ a) = true
      · simp only [hka, if_true, List.length_cons]
        have := ih ht h
        omega
      · simp only [Bool.not_eq_true] at hka
        simp only [hka, if_false]
        exact ih ht h

lemma firstFreeSuffixAux_free (pool : Pool) (k : HKey)
    (hnd : (poolNames pool).Nodup) :
    ∀ fuel i, ((occIdxs pool k).filter (fun j => decide (i ≤ j))).length < fuel →
      poolHas pool (.suffixed k (firstFreeSuffixAux pool k i fuel)) = false := by
  intro fuel
  induction fuel with
  | zero => intro i h; omega
  | succ f ih =>
    intro i h
    rw [firstFreeSuffixAux]
    by_cases hocc : poolHas pool (.suffixed k i) = true
    · rw [if_pos hocc]
      apply ih
      have hi : i ∈ occIdxs pool k :=
        (mem_occIdxs pool k i).mpr ((poolHas_iff pool _).mp hocc)
      have := filter_ge_succ_lt (occIdxs pool k) i (occIdxs_nodup pool k hnd) hi
      omega
    · rw [if_neg hocc]
      simpa using hocc

lemma firstFreeSuffix_free (pool : Pool) (k : HKey) (hnd : (poolNames pool).Nodup) :
    poolHas pool (.suffixed k (firstFreeSuffix pool k)) = false := by
  apply firstFreeSuffixAux_free pool k hnd (pool.length + 1) 1
  have h1 : (occIdxs pool k).length ≤ pool.length := by
    calc (occIdxs pool k).length ≤ (poolNames pool).length :=
          List.length_filterMap_le _ _
      _ = pool.length := by simp [poolNames]
  have h2 := List.length_filter_le (fun j => decide (1 ≤ j)) (occIdxs pool k)
  omega

/-- One step of the existing-file pass of `copy_messages_to_main`
(src/sync_forks.py lines 145-179): re-read the snapshot file (skipped when it
is gone, as the except clause does), rename it to the canonical name of its
hash when its name differs — deleting it when an equal-hash file already sits
at that name, taking the first free suffixed name when a different-hash file
does — and record its hash in the seen set. -/
def rename_existing_step (st : Pool × List HKey) (file : FName × ForkMsg) :
    Pool × List HKey :=
  match poolGet st.1 file.1 with
  | none => st
  | some m =>
    let k := generate_message_hash m
    let pool2 :=
      if file.1 = FName.canon k then st.1
      else
        match poolGet st.1 (FName.canon k) with
        | none => (FName.canon k, m) :: poolErase file.1 st.1
        | some m2 =>
          if generate_message_hash m2 = k then poolErase file.1 st.1
          else (FName.suffixed k (firstFreeSuffix st.1 k), m) :: poolErase file.1 st.1
    (pool2, k :: st.2)

/-- The existing-file pass: iterate over the snapshot of the pool taken
before any renames (`existing_files = list(main_messages_dir.glob(...))`),
threading the live directory and the seen-hash set. -/
def process_existing (pool : Pool) : Pool × List HKey :=
  pool.foldl rename_existing_step (pool, [])

/-- One message of the copy pass (src/sync_forks.py lines 200-241): skip when
its hash is already seen; otherwise tag it with its source repo, write it at
its canonical name or at the first free suffixed name, and record the hash. -/
def copy_step (repoName : Str) (st : Pool × List HKey) (m : ForkMsg) :
    Pool × List HKey :=
  let k := generate_message_hash m
  if k ∈ st.2 then st
  else
    let target :=
      if poolHas st.1 (.canon k) then FName.suffixed k (firstFreeSuffix st.1 k)
      else FName.canon k
    ((target, { m with source_repo := some repoName }) :: st.1, k :: st.2)

/-- Process one peer repository's message files. -/
def copy_repo (st : Pool × List HKey) (repo : Str × List ForkMsg) : Pool × List HKey :=
  repo.2.foldl (copy_step repo.1) st

/-- `copy_messages_to_main` (src/sync_forks.py lines 131-248): the existing
pass over the local pool followed by the copy pass over every peer repo. -/
def copy_messages_to_main (pool : Pool) (repos : List (Str × List ForkMsg)) : Pool :=
  (repos.foldl copy_repo (process_existing pool)).1

lemma replace_entry_spec (pool : Pool) (n nm : FName) (m : ForkMsg)
    (hnd : (poolNames pool).Nodup)
    (hmem : (n, m) ∈ pool) (hfree : poolHas pool nm = false) :
    (poolNames ((nm, m) :: poolErase n pool)).Nodup ∧
    (poolKeys ((nm, m) :: poolErase n pool)).Perm (poolKeys pool) ∧
    ((nm, m) :: poolErase n pool).length = pool.length ∧
    (∀ e ∈ pool, e.1 ≠ n → e ∈ (nm, m) :: poolErase n pool) := by
  have hperm := perm_cons_poolErase pool n m hnd hmem
  have hkeys : poolKeys ((nm, m) :: poolErase n pool) =
      poolKeys ((n, m) :: poolErase n pool) := rfl
  have hnames : poolNames ((n, m) :: poolErase n pool) =
      n :: poolNames (poolErase n pool) := rfl
  refine ⟨?_, ?_, ?_, ?_⟩
  · have hnd2 : (pool.map (fun e : FName × ForkMsg => e.1)).Nodup := hnd
    have h1 : (poolNames ((n, m) :: poolErase n pool)).Nodup :=
      ((hperm.map (fun e : FName × ForkMsg => e.1)).nodup_iff).mp hnd2
    rw [hnames] at h1
    obtain ⟨_, ht⟩ := List.nodup_cons.mp h1
    apply List.nodup_cons.mpr
    refine ⟨?_, ht⟩
    intro hc
    have : nm ∈ poolNames pool := by
      obtain ⟨e, he, hee⟩ := List.mem_map.mp hc
      exact List.mem_map.mpr ⟨e, ((mem_poolErase n pool e).mp he).1, hee⟩
    rw [← poolHas_iff] at this
    rw [this] at hfree
    exact absurd hfree (by simp)
  · rw [hkeys]
    exact ((hperm.map (fun e => generate_message_hash e.2))).symm
  · have := hperm.length_eq
    simpa using this.symm
  · intro e he hne
    exact List.mem_cons.mpr (Or.inr ((mem_poolErase n pool e).mpr ⟨he, hne⟩))

lemma rename_existing_step_spec (st : Pool × List HKey) (file : FName × ForkMsg)
    (h1 : (poolNames st.1).Nodup) (h2 : (poolKeys st.1).Nodup) :
    (poolNames (rename_existing_step st file).1).Nodup ∧
    (poolKeys (rename_existing_step st file).1).Perm (poolKeys st.1) ∧
    (rename_existing_step st file).1.length = st.1.length ∧
    (∀ e ∈ st.1, e.1 ≠ file.1 → e ∈ (rename_existing_step st file).1) ∧
    (∀ k0 ∈ st.2, k0 ∈ (rename_existing_step st file).2) ∧
    (∀ k2 ∈ (rename_existing_step st file).2, k2 ∈ st.2 ∨ k2 ∈ poolKeys st.1) ∧
    (∀ m2, poolGet st.1 file.1 = some m2 →
      generate_message_hash m2 ∈ (rename_existing_step st file).2) := by
  rcases hg : poolGet st.1 file.1 with _ | m
  · have hres : rename_existing_step st file = st := by
      rw [rename_existing_step, hg]
    rw [hres]
    refine ⟨h1, List.Perm.refl _, rfl, fun e he _ => he, fun k0 h0 => h0,
      fun k2 hk2 => Or.inl hk2, ?_⟩
    intro m2 hm2
    exact absurd hm2 (by simp)
  · have hmem : (file.1, m) ∈ st.1 := mem_of_poolGet_eq_some _ _ _ hg
    have hkmem : generate_message_hash m ∈ poolKeys st.1 :=
      List.mem_map.mpr ⟨(file.1, m), hmem, rfl⟩
    by_cases hc : file.1 = FName.canon (generate_message_hash m)
    · have hres : rename_existing_step st file = (st.1, generate_message_hash m :: st.2) := by
        rw [rename_existing_step, hg]
        simp only [if_pos hc]
      rw [hres]
      refine ⟨h1, List.Perm.refl _, rfl, fun e he _ => he,
        fun k0 h0 => List.mem_cons.mpr (Or.inr h0),
        fun k2 hk2 => (List.mem_cons.mp hk2).elim (fun h => Or.inr (h ▸ hkmem)) Or.inl, ?_⟩
      intro m2 hm2
      injection hm2 with hmm
      subst hmm
      exact List.mem_cons.mpr (Or.inl rfl)
    · rcases hcg : poolGet st.1 (FName.canon (generate_message_hash m)) with _ | m2
      · have hres : rename_existing_step st file =
            ((FName.canon (generate_message_hash m), m) :: poolErase file.1 st.1,
             generate_message_hash m :: st.2) := by
          rw [rename_existing_step, hg]
          simp only [if_neg hc, hcg]
        obtain ⟨s1, s2, s3, s4⟩ := replace_entry_spec st.1 file.1
          (FName.canon (generate_message_hash m)) m h1 hmem (by rw [poolHas, hcg]; rfl)
        rw [hres]
        refine ⟨s1, s2, s3, s4, fun k0 h0 => List.mem_cons.mpr (Or.inr h0),
          fun k2 hk2 => (List.mem_cons.mp hk2).elim (fun h => Or.inr (h ▸ hkmem)) Or.inl, ?_⟩
        intro m2 hm2
        injection hm2 with hmm
        subst hmm
        exact List.mem_cons.mpr (Or.inl rfl)
      · have hmem2 : (FName.canon (generate_message_hash m), m2) ∈ st.1 :=
          mem_of_poolGet_eq_some _ _ _ hcg
        have h2m : (st.1.map (fun e : FName × ForkMsg => generate_message_hash e.2)).Nodup := h2
        have hne2 : ¬ generate_message_hash m2 = generate_message_hash m := by
          intro heq
          have := List.inj_on_of_nodup_map h2m hmem hmem2 heq.symm
          exact hc (congrArg Prod.fst this)
        have hres : rename_existing_step st file =
            ((FName.suffixed (generate_message_hash m)
                (firstFreeSuffix st.1 (generate_message_hash m)), m) ::
              poolErase file.1 st.1,
             generate_message_hash m :: st.2) := by
          rw [rename_existing_step, hg]
          simp only [if_neg hc, hcg, if_neg hne2]
        obtain ⟨s1, s2, s3, s4⟩ := replace_entry_spec st.1 file.1
          (FName.suffixed (generate_message_hash m)
            (firstFreeSuffix st.1 (generate_message_hash m))) m h1 hmem
          (firstFreeSuffix_free st.1 (generate_message_hash m) h1)
        rw [hres]
        refine ⟨s1, s2, s3, s4, fun k0 h0 => List.mem_cons.mpr (Or.inr h0),
          fun k2 hk2 => (List.mem_cons.mp hk2).elim (fun h => Or.inr (h ▸ hkmem)) Or.inl, ?_⟩
        intro m2 hm2
        injection hm2 with hmm
        subst hmm
        exact List.mem_cons.mpr (Or.inl rfl)

lemma existing_fold_spec (snapshot : List (FName × ForkMsg)) :
    ∀ st : Pool × List HKey,
      (poolNames st.1).Nodup → (poolKeys st.1).Nodup →
      (∀ e ∈ snapshot, e ∈ st.1) →
      (snapshot.map (fun e => e.1)).Nodup →
      (poolNames (snapshot.foldl rename_existing_step st).1).Nodup ∧
      (poolKeys (snapshot.foldl rename_existing_step st).1).Perm (poolKeys st.1) ∧
      (snapshot.foldl rename_existing_step st).1.length = st.1.length ∧
      (∀ k0 ∈ st.2, k0 ∈ (snapshot.foldl rename_existing_step st).2) ∧
      (∀ k2 ∈ (snapshot.foldl rename_existing_step st).2,
        k2 ∈ st.2 ∨ k2 ∈ poolKeys st.1) ∧
      (∀ e ∈ snapshot,
        generate_message_hash e.2 ∈ (snapshot.foldl rename_existing_step st).2) := by
  induction snapshot with
  | nil =>
    intro st hn hk _ _
    exact ⟨hn, List.Perm.refl _, rfl, fun k0 h0 => h0, fun k2 h2 => Or.inl h2, by simp⟩
  | cons f rest ih =>
    intro st hn hk hS hSnd
    obtain ⟨p1, p2, p3, p4, p5, p6, p7⟩ := rename_existing_step_spec st f hn hk
    rw [List.foldl_cons]
    rw [List.map_cons] at hSnd
    obtain ⟨hfh, hft⟩ := List.nodup_cons.mp hSnd
    have hkeys2 : (poolKeys (rename_existing_step st f).1).Nodup := (p2.nodup_iff).mpr hk
    have hS2 : ∀ e ∈ rest, e ∈ (rename_existing_step st f).1 := by
      intro e he
      apply p4 e (hS e (by simp [he]))
      intro hne
      apply hfh
      rw [← hne]
      exact List.mem_map.mpr ⟨e, he, rfl⟩
    obtain ⟨q1, q2, q3, q4, q5, q6⟩ := ih (rename_existing_step st f) p1 hkeys2 hS2 hft
    refine ⟨q1, q2.trans p2, q3.trans p3, fun k0 h0 => q4 _ (p5 k0 h0),
      fun k2 hk2 => ?_, ?_⟩
    · rcases q5 k2 hk2 with h | h
      · exact p6 k2 h
      · exact Or.inr ((p2.mem_iff).mp h)
    · intro e he
      rcases List.mem_cons.mp he with h | h
      · subst h
        exact q4 _ (p7 e.2 (poolGet_eq_some_of_mem st.1 e.1 e.2 hn (hS e (by simp))))
      · exact q6 e h

lemma process_existing_spec (pool : Pool)
    (hn : (poolNames pool).Nodup) (hk : (poolKeys pool).Nodup) :
    (poolNames (process_existing pool).1).Nodup ∧
    (poolKeys (process_existing pool).1).Perm (poolKeys pool) ∧
    (process_existing pool).1.length = pool.length ∧
    (∀ k2 ∈ (process_existing pool).2, k2 ∈ poolKeys pool) ∧
    (∀ k2 ∈ poolKeys pool, k2 ∈ (process_existing pool).2) := by
  obtain ⟨q1, q2, q3, _, q5, q6⟩ :=
    existing_fold_spec pool (pool, []) hn hk (fun e he => he) hn
  refine ⟨q1, q2, q3, ?_, ?_⟩
  · intro k2 hk2
    rcases q5 k2 hk2 with h | h
    · simp at h
    · exact h
  · intro k2 hk2
    obtain ⟨e, he, hee⟩ := List.mem_map.mp hk2
    rw [← hee]
    exact q6 e he

/-- The invariant the copy pass maintains: distinct filenames, distinct hash
keys, and a seen set equal, as a set, to the pool's key set. -/
def CopyInv (st : Pool × List HKey) : Prop :=
  (poolNames st.1).Nodup ∧ (poolKeys st.1).Nodup ∧
  (∀ k ∈ st.2, k ∈ poolKeys st.1) ∧ (∀ k ∈ poolKeys st.1, k ∈ st.2)

lemma copy_step_spec (repoName : Str) (st : Pool × List HKey) (m : ForkMsg)
    (h : CopyInv st) :
    CopyInv (copy_step repoName st m) ∧
    (∀ k0 ∈ st.2, k0 ∈ (copy_step repoName st m).2) ∧
    generate_message_hash m ∈ (copy_step repoName st m).2 ∧
    (generate_message_hash m ∈ st.2 → copy_step repoName st m = st) ∧
    (∀ k2, countKey k2 (copy_step repoName st m).1 =
      countKey k2 st.1 +
        (if generate_message_hash m ∉ st.2 ∧ generate_message_hash m = k2 then 1 else 0)) ∧
    (copy_step repoName st m).1.length =
      st.1.length + (if generate_message_hash m ∈ st.2 then 0 else 1) ∧
    ((copy_step repoName st m).2 = st.2 ∨
      (copy_step repoName st m).2 = generate_message_hash m :: st.2) := by
  obtain ⟨i1, i2, i3, i4⟩ := h
  by_cases hseen : generate_message_hash m ∈ st.2
  · have hres : copy_step repoName st m = st := by
      rw [copy_step]
      simp only [if_pos hseen]
    rw [hres]
    refine ⟨⟨i1, i2, i3, i4⟩, fun k0 h0 => h0, hseen, fun _ => rfl, ?_, by simp [hseen],
      Or.inl rfl⟩
    intro k2
    simp [hseen]
  · have hres : copy_step repoName st m =
        (((if poolHas st.1 (.canon (generate_message_hash m)) then
            FName.suffixed (generate_message_hash m)
              (firstFreeSuffix st.1 (generate_message_hash m))
          else FName.canon (generate_message_hash m)),
          { m with source_repo := some repoName }) :: st.1,
         generate_message_hash m :: st.2) := by
      rw [copy_step]
      simp only [if_neg hseen]
    have hkey2 : generate_message_hash { m with source_repo := some repoName } =
        generate_message_hash m := rfl
    have hfree : poolHas st.1
        (if poolHas st.1 (.canon (generate_message_hash m)) then
          FName.suffixed (generate_message_hash m)
            (firstFreeSuffix st.1 (generate_message_hash m))
        else FName.canon (generate_message_hash m)) = false := by
      by_cases hcanon : poolHas st.1 (.canon (generate_message_hash m)) = true
      · rw [if_pos hcanon]
        exact firstFreeSuffix_free st.1 (generate_message_hash m) i1
      · rw [if_neg hcanon]
        simpa using hcanon
    have hknotin : generate_message_hash m ∉ poolKeys st.1 := by
      intro hc
      exact hseen (i4 _ hc)
    rw [hres]
    refine ⟨⟨?_, ?_, ?_, ?_⟩, fun k0 h0 => List.mem_cons.mpr (Or.inr h0),
      List.mem_cons.mpr (Or.inl rfl), fun hc => absurd hc hseen, ?_, by simp [hseen],
      Or.inr rfl⟩
    · apply List.nodup_cons.mpr
      refine ⟨?_, i1⟩
      intro hc
      have hc2 : (if poolHas st.1 (FName.canon (generate_message_hash m)) = true then
          FName.suffixed (generate_message_hash m)
            (firstFreeSuffix st.1 (generate_message_hash m))
        else FName.canon (generate_message_hash m)) ∈ poolNames st.1 := hc
      rw [← poolHas_iff] at hc2
      rw [hc2] at hfree
      exact absurd hfree (by simp)
    · apply List.nodup_cons.mpr
      exact ⟨by rw [show poolKeys st.1 = st.1.map (fun e => generate_message_hash e.2)
        from rfl] at hknotin; simpa [poolKeys, hkey2] using hknotin, i2⟩
    · intro k hk
      rcases List.mem_cons.mp hk with hx | hx
      · subst hx
        exact List.mem_cons.mpr (Or.inl hkey2.symm)
      · exact List.mem_cons.mpr (Or.inr (i3 k hx))
    · intro k hk
      rcases List.mem_cons.mp hk with hx | hx
      · subst hx
        exact List.mem_cons.mpr (Or.inl hkey2)
      · exact List.mem_cons.mpr (Or.inr (i4 k hx))
    · intro k2
      rw [countKey, List.countP_cons, countKey]
      congr 1
      by_cases hk2 : generate_message_hash m = k2
      · rw [if_pos (And.intro hseen hk2)]
        simp [hkey2, hk2]
      · have hcc : ¬ (generate_message_hash
            ({ m with source_repo := some repoName } : ForkMsg) = k2) :=
          fun hcc0 => hk2 (hkey2 ▸ hcc0)
        simp [hcc, hk2]

lemma copy_msgs_fold_spec (msgs : List ForkMsg) (repoName : Str) :
    ∀ st, CopyInv st →
      CopyInv (msgs.foldl (copy_step repoName) st) ∧
      (∀ k0 ∈ st.2, k0 ∈ (msgs.foldl (copy_step repoName) st).2) ∧
      (∀ m ∈ msgs, generate_message_hash m ∈ (msgs.foldl (copy_step repoName) st).2) ∧
      ((∀ m ∈ msgs, generate_message_hash m ∈ st.2) →
        msgs.foldl (copy_step repoName) st = st) ∧
      (∀ k2, ((countKey k2 st.1 = 0 ∧ k2 ∉ st.2) ∨
          (countKey k2 st.1 = 1 ∧ k2 ∈ st.2)) →
        ((countKey k2 (msgs.foldl (copy_step repoName) st).1 = 0 ∧
            k2 ∉ (msgs.foldl (copy_step repoName) st).2) ∨
         (countKey k2 (msgs.foldl (copy_step repoName) st).1 = 1 ∧
            k2 ∈ (msgs.foldl (copy_step repoName) st).2))) := by
  induction msgs with
  | nil =>
    intro st h
    exact ⟨h, fun k0 h0 => h0, by simp, fun _ => rfl, fun k2 hd => hd⟩
  | cons m rest ih =>
    intro st h
    obtain ⟨c1, c2, c3, c4, c5, c6, c7⟩ := copy_step_spec repoName st m h
    rw [List.foldl_cons]
    obtain ⟨q1, q2, q3, q4, q5⟩ := ih (copy_step repoName st m) c1
    refine ⟨q1, fun k0 h0 => q2 _ (c2 k0 h0), ?_, ?_, ?_⟩
    · intro m2 hm2
      rcases List.mem_cons.mp hm2 with hx | hx
      · subst hx
        exact q2 _ c3
      · exact q3 m2 hx
    · intro hall
      have hst : copy_step repoName st m = st := c4 (hall m (by simp))
      rw [hst] at q4 ⊢
      exact q4 (fun m2 hm2 => hall m2 (by simp [hm2]))
    · intro k2 hd
      apply q5
      rcases hd with ⟨hc0, hns⟩ | ⟨hc1, hs⟩
      · by_cases hk2 : generate_message_hash m = k2
        · subst hk2
          right
          refine ⟨?_, c3⟩
          rw [c5 _]
          simp [hns, hc0]
        · left
          refine ⟨?_, ?_⟩
          · rw [c5 k2]
            simp [hk2, hc0]
          · rcases c7 with hc | hc
            · rw [hc]
              exact hns
            · rw [hc]
              intro hmem
              rcases List.mem_cons.mp hmem with hx | hx
              · exact hk2 hx.symm
              · exact hns hx
      · have hstep : copy_step repoName st m = st ∨
            generate_message_hash m ∉ st.2 := by
          by_cases hseen : generate_message_hash m ∈ st.2
          · exact Or.inl (c4 hseen)
          · exact Or.inr hseen
        rcases hstep with hst | hnseen
        · rw [hst]
          exact Or.inr ⟨hc1, hs⟩
        · right
          have hk2 : ¬ generate_message_hash m = k2 := by
            intro he
            exact hnseen (he ▸ hs)
          refine ⟨?_, c2 k2 hs⟩
          rw [c5 k2]
          simp [hk2, hc1]

lemma copy_repos_fold_spec (repos : List (Str × List ForkMsg)) :
    ∀ st, CopyInv st →
      CopyInv (repos.foldl copy_repo st) ∧
      (∀ k0 ∈ st.2, k0 ∈ (repos.foldl copy_repo st).2) ∧
      (∀ repo ∈ repos, ∀ m ∈ repo.2,
        generate_message_hash m ∈ (repos.foldl copy_repo st).2) ∧
      ((∀ repo ∈ repos, ∀ m ∈ repo.2, generate_message_hash m ∈ st.2) →
        repos.foldl copy_repo st = st) ∧
      (∀ k2, ((countKey k2 st.1 = 0 ∧ k2 ∉ st.2) ∨
          (countKey k2 st.1 = 1 ∧ k2 ∈ st.2)) →
        ((countKey k2 (repos.foldl copy_repo st).1 = 0 ∧
            k2 ∉ (repos.foldl copy_repo st).2) ∨
         (countKey k2 (repos.foldl copy_repo st).1 = 1 ∧
            k2 ∈ (repos.foldl copy_repo st).2))) := by
  induction repos with
  | nil =>
    intro st h
    exact ⟨h, fun k0 h0 => h0, by simp, fun _ => rfl, fun k2 hd => hd⟩
  | cons repo rest ih =>
    intro st h
    obtain ⟨c1, c2, c3, c4, c5⟩ := copy_msgs_fold_spec repo.2 repo.1 st h
    rw [List.foldl_cons]
    obtain ⟨q1, q2, q3, q4, q5⟩ := ih (copy_repo st repo) c1
    refine ⟨q1, fun k0 h0 => q2 _ (c2 k0 h0), ?_, ?_, fun k2 hd => q5 k2 (c5 k2 hd)⟩
    · intro repo2 hrepo2 m2 hm2
      rcases List.mem_cons.mp hrepo2 with hx | hx
      · subst hx
        exact q2 _ (c3 m2 hm2)
      · exact q3 repo2 hx m2 hm2
    · intro hall
      have hst : copy_repo st repo = st := c4 (fun m2 hm2 => hall repo (by simp) m2 hm2)
      rw [hst] at q4 ⊢
      exact q4 (fun repo2 hrepo2 m2 hm2 => hall repo2 (by simp [hrepo2]) m2 hm2)

lemma countKey_eq_countP_keys (k : HKey) (pool : Pool) :
    countKey k pool = (poolKeys pool).countP (fun x => decide (x = k)) := by
  rw [poolKeys, List.countP_map]
  rfl

lemma countKey_eq_zero_iff (k : HKey) (pool : Pool) :
    countKey k pool = 0 ↔ k ∉ poolKeys pool := by
  rw [countKey, List.countP_eq_zero]
  constructor
  · intro h hkm
    obtain ⟨e, he, hee⟩ := List.mem_map.mp hkm
    have := h e he
    simp only [decide_eq_true_eq] at this
    exact this hee
  · intro h e he
    simp only [decide_eq_true_eq]
    intro hp
    exact h (List.mem_map.mpr ⟨e, he, hp⟩)

/-- C4: the fork merge never creates two pool entries with the same content
hash (over content, user and timestamp), running it twice over unchanged peer
directories leaves the pool's entry count unchanged, and a byte-identical
message present in two different peer repositories ends up as exactly one
local pool entry.  The starting pool is assumed well-formed — distinct
filenames and no two entries with the same hash, exactly the state the merge
itself guarantees by part (1). -/
theorem mergeMessages_dedup (pool : Pool) (repos : List (Str × List ForkMsg))
    (hn : (poolNames pool).Nodup) (hk : (poolKeys pool).Nodup) :
    ((poolNames (copy_messages_to_main pool repos)).Nodup ∧
     (poolKeys (copy_messages_to_main pool repos)).Nodup) ∧
    (copy_messages_to_main (copy_messages_to_main pool repos) repos).length =
      (copy_messages_to_main pool repos).length ∧
    (∀ m : ForkMsg, ∀ i j : Fin repos.length, i ≠ j →
      m ∈ (repos.get i).2 → m ∈ (repos.get j).2 →
      countKey (generate_message_hash m) pool = 0 →
      countKey (generate_message_hash m) (copy_messages_to_main pool repos) = 1) := by
  obtain ⟨e1, e2, e3, e4, e5⟩ := process_existing_spec pool hn hk
  have hInv0 : CopyInv (process_existing pool) := by
    refine ⟨e1, (e2.nodup_iff).mpr hk, ?_, ?_⟩
    · intro k0 h0
      exact (e2.mem_iff).mpr (e4 k0 h0)
    · intro k0 h0
      exact e5 k0 ((e2.mem_iff).mp h0)
  obtain ⟨q1, q2, q3, q4, q5⟩ := copy_repos_fold_spec repos (process_existing pool) hInv0
  obtain ⟨w1, w2, w3, w4⟩ := q1
  have hpool1 : copy_messages_to_main pool repos = (repos.foldl copy_repo (process_existing pool)).1 := rfl
  refine ⟨⟨by rw [hpool1]; exact w1, by rw [hpool1]; exact w2⟩, ?_, ?_⟩
  · obtain ⟨f1, f2, f3, f4, f5⟩ := process_existing_spec (copy_messages_to_main pool repos)
      (by rw [hpool1]; exact w1) (by rw [hpool1]; exact w2)
    have hInv1 : CopyInv (process_existing (copy_messages_to_main pool repos)) := by
      refine ⟨f1, (f2.nodup_iff).mpr (by rw [hpool1]; exact w2), ?_, ?_⟩
      · intro k0 h0
        exact (f2.mem_iff).mpr (f4 k0 h0)
      · intro k0 h0
        exact f5 k0 ((f2.mem_iff).mp h0)
    obtain ⟨r1, r2, r3, r4, r5⟩ := copy_repos_fold_spec repos
      (process_existing (copy_messages_to_main pool repos)) hInv1
    have hall : ∀ repo ∈ repos, ∀ m ∈ repo.2, generate_message_hash m ∈
        (process_existing (copy_messages_to_main pool repos)).2 := by
      intro repo hrepo m hm
      apply f5
      rw [hpool1]
      exact w3 _ (q3 repo hrepo m hm)
    have hskip := r4 hall
    rw [copy_messages_to_main, hskip]
    exact f3
  · intro m i j hij hmi hmj hcount0
    have hkm0 : countKey (generate_message_hash m) (process_existing pool).1 = 0 := by
      rw [countKey_eq_countP_keys, List.Perm.countP_eq _ e2, ← countKey_eq_countP_keys]
      exact hcount0
    have hns0 : generate_message_hash m ∉ (process_existing pool).2 := by
      intro hmem
      have : generate_message_hash m ∈ poolKeys pool := e4 _ hmem
      exact ((countKey_eq_zero_iff _ _).mp hcount0) this
    have hd := q5 (generate_message_hash m) (Or.inl ⟨hkm0, hns0⟩)
    have hkseen : generate_message_hash m ∈ (repos.foldl copy_repo (process_existing pool)).2 :=
      q3 (repos.get i) (List.get_mem repos i.1 i.2) m hmi
    rcases hd with ⟨_, hns⟩ | ⟨hc1, _⟩
    · exact absurd hkseen hns
    · rw [hpool1]
      exact hc1

/-- C4 witness: starting from the empty pool, the byte-identical message
present in the two concrete peers r and s ends up with exactly one pool
entry. -/
theorem mergeMessages_dedup_witness :
    countKey (generate_message_hash ⟨['h'], ['a'], ['t'], none⟩)
      (copy_messages_to_main []
        [(['r'], [⟨['h'], ['a'], ['t'], none⟩]),
         (['s'], [⟨['h'], ['a'], ['t'], none⟩])]) = 1 :=
  (mergeMessages_dedup []
      [(['r'], [⟨['h'], ['a'], ['t'], none⟩]),
       (['s'], [⟨['h'], ['a'], ['t'], none⟩])]
      (by decide) (by decide)).2.2
    ⟨['h'], ['a'], ['t'], none⟩ ⟨0, by decide⟩ ⟨1, by decide⟩ (by decide)
    (by decide) (by decide) (by decide)
